import Mathlib

/-!
# goduplicatephoto: duplicate-photo detector

A shallow embedding of `pkg/image/image.go`, `pkg/signature/signature.go`
and `pkg/detector/detector.go`, followed by theorems about the embedded
functions.

Conventions of the embedding

* Paths are `String`s; the functions of Go's `path/filepath` that the program
  calls (`Ext`, `Base`, `Dir`, `Clean`, `Join`) are transcribed for the Unix
  separator `/`, working on the list of characters of the path.
* The filesystem is a finite map from paths to regular files.  A file carries
  the two things the program ever asks of it: the outcome of a full decode
  (`image.Decode`) and the outcome of a header decode (`image.DecodeConfig`).
  Directories are implicit: `os.MkdirAll` always succeeds and is not recorded.
* `os.Stat` succeeds exactly on the paths that hold a file; `os.Rename` fails
  exactly when the source holds no file and otherwise replaces the
  destination.
* Go's `int` is the 64-bit two's-complement integer; a `float64` is kept as
  the integer number of units of `2^-72` it amounts to.
* Functions returning `(T, error)` return `Except String T`.
* `sort.Slice` is a parameter: any function that returns a sorted
  rearrangement of its input.  Nothing is assumed about the order it gives to
  elements that compare equal.
* The iteration order of the signature map is a parameter as well: any
  rearrangement of the entries of the map.
* A detector carries its configuration and its signature map; `Run` adds to the
  map the detector already has, which is empty for a detector made by
  `NewDuplicateDetector`.
-/

namespace GoDuplicatePhoto

deriving instance DecidableEq for Except

/-! ## `path/filepath` (Unix) -/

/-- The test `os.IsPathSeparator` on Unix. -/
def isPathSeparator (c : Char) : Bool := c == '/'

/-- Scan of `filepath.Ext` over the reversed path: `acc` collects the characters
already passed, so that the extension starts at the first dot met. -/
def extRev : List Char → List Char → List Char
  | [], _ => []
  | c :: rest, acc =>
    if isPathSeparator c then []
    else if c == '.' then c :: acc
    else extRev rest (c :: acc)

/-- Go `filepath.Ext`: the suffix beginning at the final dot in the final
element of the path; empty if there is no dot. -/
def Ext (path : String) : String := String.mk (extRev path.data.reverse [])

/-- Drop the trailing separators of a reversed path. -/
def dropSeparators : List Char → List Char
  | [] => []
  | c :: rest => if isPathSeparator c then dropSeparators rest else c :: rest

/-- Take the characters of a reversed path up to the first separator. -/
def takeElement : List Char → List Char
  | [] => []
  | c :: rest => if isPathSeparator c then [] else c :: takeElement rest

/-- Go `filepath.Base`: the last element of the path, trailing separators
removed; `.` for the empty path and `/` for a path of separators only. -/
def Base (path : String) : String :=
  if path.data = [] then "."
  else
    let stripped := dropSeparators path.data.reverse
    let last := (takeElement stripped).reverse
    if last = [] then "/" else String.mk last

/-- Split a list of characters at the separators. -/
def splitElements : List Char → List (List Char)
  | [] => [[]]
  | c :: rest =>
    match splitElements rest with
    | [] => [[]]
    | e :: es => if isPathSeparator c then [] :: e :: es else (c :: e) :: es

/-- One step of the element loop of `filepath.Clean`.  The stack holds the
elements written so far, last one first. -/
def cleanStep (rooted : Bool) (stack : List (List Char)) (e : List Char) :
    List (List Char) :=
  if e = [] then stack
  else if e = ['.'] then stack
  else if e = ['.', '.'] then
    match stack with
    | [] => if rooted then [] else [['.', '.']]
    | top :: below =>
      if top = ['.', '.'] then (if rooted then stack else ['.', '.'] :: stack)
      else below
  else e :: stack

/-- Join the elements with single separators. -/
def joinElements : List (List Char) → List Char
  | [] => []
  | [e] => e
  | e :: es => e ++ '/' :: joinElements es

/-- Go `filepath.Clean` on a list of characters. -/
def cleanChars (path : List Char) : List Char :=
  match path with
  | [] => ['.']
  | c :: _ =>
    let rooted := isPathSeparator c
    let stack := (splitElements path).foldl (cleanStep rooted) []
    let body := joinElements stack.reverse
    if rooted then '/' :: body
    else if body = [] then ['.'] else body

/-- Go `filepath.Clean`. -/
def Clean (path : String) : String := String.mk (cleanChars path.data)

/-- Drop the characters of a reversed path down to the last separator. -/
def dropElement : List Char → List Char
  | [] => []
  | c :: rest => if isPathSeparator c then c :: rest else dropElement rest

/-- Go `filepath.Dir`: all but the last element of the path, cleaned. -/
def Dir (path : String) : String :=
  String.mk (cleanChars (dropElement path.data.reverse).reverse)

/-- Go `filepath.Join` for two elements: the elements from the first non-empty
one on are joined by a separator and cleaned. -/
def Join (a b : String) : String :=
  if a.data ≠ [] then String.mk (cleanChars (a.data ++ '/' :: b.data))
  else if b.data ≠ [] then String.mk (cleanChars b.data)
  else ""

/-! ## `pkg/image`: extension filter -/

/-- The keys of the map `supportedExtensions`. -/
def supportedExtensions : List String :=
  [".jpg", ".jpeg", ".png", ".bmp", ".gif", ".tiff", ".webp"]

/-- Go `IsImageFile`: look the extension up in `supportedExtensions`. -/
def IsImageFile (filePath : String) : Bool :=
  decide (Ext filePath ∈ supportedExtensions)

/-! ## The filesystem -/

/-- A decoded picture: its bounds and its pixel data. -/
structure Image where
  width : Nat
  height : Nat
  pixels : List Nat
deriving DecidableEq, Repr

/-- A regular file, seen through the two decoders the program applies to it. -/
structure File where
  /-- The outcome of `image.Decode`: `none` when the content does not decode. -/
  decoded : Option Image
  /-- The outcome of `image.DecodeConfig`: `none` when the header cannot be
  read, else the width and the height it declares. -/
  config : Option (Int × Int)
deriving DecidableEq, Repr

/-- The filesystem: the regular file found at each path, if any. -/
abbrev FS := String → Option File

/-- Whether `os.Stat path` returns a nil error. -/
def statOk (fs : FS) (path : String) : Bool := (fs path).isSome

/-- The call `os.Rename src dst`: fails when `src` holds no file, else the file
leaves `src` and replaces whatever `dst` held. -/
def rename (fs : FS) (src dst : String) : Except String FS :=
  match fs src with
  | none => .error "no such file or directory"
  | some f => .ok (fun p => if p = dst then some f else if p = src then none else fs p)

/-! ## Machine arithmetic -/

/-- Reduce an integer to Go's 64-bit two's-complement `int`. -/
def wrapInt (x : Int) : Int := (x + 2 ^ 63) % 2 ^ 64 - 2 ^ 63

/-- Halve `n` until it drops below two, counting the steps. -/
def log2Fuel : Nat → Nat → Nat
  | 0, _ => 0
  | fuel + 1, n => if n < 2 then 0 else log2Fuel fuel (n / 2) + 1

/-- The position of the leading bit of `n` (zero for `n < 2`). -/
def floorLog2 (n : Nat) : Nat := log2Fuel n n

/-- Round the rational `p / q` (`0 < q`) to the nearest `float64`, ties to the
even significand; the result is the number of units of `2^-72` of that
`float64`.  Exact whenever `p = 0` or `2^-20 ≤ p / q < 2^1024`, which covers
every 64-bit integer and every quotient of a non-zero integer by `10^6`. -/
def roundToFloat64 (p q : Nat) : Nat :=
  let n := p * 2 ^ 72
  let shift := floorLog2 (n / q) - 52
  let d := q * 2 ^ shift
  let m := n / d
  let r := n % d
  if 2 * r > d ∨ (2 * r = d ∧ m % 2 = 1) then (m + 1) * 2 ^ shift else m * 2 ^ shift

/-- The conversion `float64(a)` of an `int`, in units of `2^-72`. -/
def float64OfInt (a : Int) : Int :=
  if 0 ≤ a then (roundToFloat64 a.natAbs 1 : Int) else -(roundToFloat64 a.natAbs 1 : Int)

/-- The `float64` quotient of `x` (in units of `2^-72`) by the positive integer
constant `y`, in units of `2^-72`. -/
def float64DivConst (x : Int) (y : Nat) : Int :=
  if 0 ≤ x then (roundToFloat64 x.natAbs (2 ^ 72 * y) : Int)
  else -(roundToFloat64 x.natAbs (2 ^ 72 * y) : Int)

/-- The expression `float64(width*height) / 1_000_000`, in units of `2^-72`. -/
def megapixelsOf (width height : Int) : Int :=
  float64DivConst (float64OfInt (wrapInt (width * height))) 1000000

/-! ## `sort.Slice` -/

/-- The inner loop of Go's insertion sort: `x` sits right of the sorted prefix,
given last element first, and is swapped leftwards while it is less than its
left neighbour. -/
def sinkInto {α : Type} (less : α → α → Bool) (x : α) : List α → List α
  | [] => [x]
  | y :: ys => if less x y then y :: sinkInto less x ys else x :: y :: ys

/-- Go's insertion sort, which `sort.Slice` runs on short slices. -/
def insertionSort {α : Type} (less : α → α → Bool) (data : List α) : List α :=
  (data.foldl (fun sortedRev x => sinkInto less x sortedRev) []).reverse

/-- Go `sort.Slice`.  The repository does not fix the algorithm, and the library
only promises a sorted rearrangement, not a stable one: `sortSlice` stands for
any function that returns a rearrangement of the slice in which no element is
less than one before it (stated for orders that compare an integer key, as
`SortByResolution` does). -/
structure SortLib where
  sortSlice : {α : Type} → (α → α → Bool) → List α → List α
  perm : ∀ {α : Type} (less : α → α → Bool) (data : List α), (sortSlice less data).Perm data
  sorted : ∀ {α : Type} (key : α → Int) (data : List α),
    (sortSlice (fun a b => decide (key a > key b)) data).Pairwise (fun a b => key b ≤ key a)

/-! ## `pkg/image`: dimensions and ranking -/

/-- Go `GetImageDimensions`: open the file and decode its header. -/
def GetImageDimensions (fs : FS) (filePath : String) : Except String (Int × Int) :=
  match fs filePath with
  | none => .error "failed to open file"
  | some f =>
    match f.config with
    | none => .error "failed to decode image config"
    | some (w, h) => .ok (w, h)

/-- The local type `fileInfo` of `SortByResolution`; `megapixels` is a
`float64` in units of `2^-72`. -/
structure fileInfo where
  path : String
  width : Int
  height : Int
  megapixels : Int
deriving DecidableEq, Repr

/-- The first loop of `SortByResolution`: one `fileInfo` per path whose
dimensions can be read, the others skipped. -/
def collectInfo (fs : FS) : List String → List fileInfo
  | [] => []
  | path :: rest =>
    match GetImageDimensions fs path with
    | .error _ => collectInfo fs rest
    | .ok (width, height) =>
      { path := path, width := width, height := height,
        megapixels := megapixelsOf width height } :: collectInfo fs rest

/-- Go `SortByResolution`. -/
def SortByResolution (srt : SortLib) (fs : FS) (filePaths : List String) :
    Except String (List String) :=
  let files := collectInfo fs filePaths
  let files := srt.sortSlice (fun a b => decide (a.megapixels > b.megapixels)) files
  .ok (files.map fun f => f.path)

/-! ## `pkg/signature` -/

/-- The library calls behind the signature: `imaging.Thumbnail`, `png.Encode`,
`jpeg.Encode` (each encoder gives the bytes it wrote to the buffer and whether
it returned a nil error) and the hexadecimal MD5 digest. -/
structure ImageLib where
  thumbnail : Image → Int → Int → Image
  pngEncode : Image → List Nat × Bool
  jpegEncode : Image → List Nat × Bool
  md5Hex : List Nat → String

/-- Go `LoadImage`: open the file and decode it. -/
def LoadImage (fs : FS) (filePath : String) : Except String Image :=
  match fs filePath with
  | none => .error "failed to open file"
  | some f =>
    match f.decoded with
    | none => .error "failed to decode image"
    | some img => .ok img

/-- Go `CreateThumbnail`. -/
def CreateThumbnail (lib : ImageLib) (img : Image) (size : Int) : Image :=
  lib.thumbnail img size size

/-- Go `ImageToBytes`: encode as PNG into a buffer; if that fails, encode as
JPEG into the same buffer, ignoring the error; return the buffer. -/
def ImageToBytes (lib : ImageLib) (img : Image) : List Nat :=
  let (buf, ok) := lib.pngEncode img
  if ok then buf else buf ++ (lib.jpegEncode img).1

/-- Go `GenerateSignature`.  `hash.Write` never returns an error. -/
def GenerateSignature (lib : ImageLib) (fs : FS) (filePath : String) (thumbSize : Int) :
    Except String String :=
  match LoadImage fs filePath with
  | .error e => .error ("failed to load image: " ++ e)
  | .ok img =>
    let thumb := CreateThumbnail lib img thumbSize
    let thumbData := ImageToBytes lib thumb
    .ok (lib.md5Hex thumbData)

/-! ## `pkg/detector` -/

/-- Go `Config`. -/
structure Config where
  InputDir : String
  OutputDir : String
  ThumbnailSize : Int
  Verbose : Bool

/-- Go `Stats`. -/
structure Stats where
  TotalFiles : Nat
  ImagesFound : Nat
  DuplicatesFound : Nat
  FilesMoved : Nat
deriving DecidableEq, Repr

/-- The value `&Stats{}`. -/
def zeroStats : Stats := ⟨0, 0, 0, 0⟩

/-- The map `sigs`, as its entries in order of first insertion. -/
abbrev SigMap := List (String × List String)

/-- The statement `dd.sigs[sig] = append(dd.sigs[sig], path)`. -/
def appendSig : SigMap → String → String → SigMap
  | [], sig, path => [(sig, [path])]
  | (k, files) :: rest, sig, path =>
    if k = sig then (k, files ++ [path]) :: rest else (k, files) :: appendSig rest sig path

/-- One call of the `WalkDir` callback: the path, whether the entry is a
directory, and whether the walk reports an error for it. -/
structure WalkEntry where
  path : String
  isDir : Bool
  err : Bool
deriving DecidableEq, Repr

/-- The body of the callback passed to `filepath.WalkDir` in `Run`. -/
def visit (lib : ImageLib) (cfg : Config) (fs : FS) (state : Stats × SigMap) (e : WalkEntry) :
    Except String (Stats × SigMap) :=
  let (stats, sigs) := state
  if e.err then .error "walk error"
  else if e.isDir then .ok (stats, sigs)
  else
    let stats := { stats with TotalFiles := stats.TotalFiles + 1 }
    if !IsImageFile e.path then .ok (stats, sigs)
    else
      let stats := { stats with ImagesFound := stats.ImagesFound + 1 }
      match GenerateSignature lib fs e.path cfg.ThumbnailSize with
      | .error _ => .ok (stats, sigs)
      | .ok sig => .ok (stats, appendSig sigs sig e.path)

/-- The walk of `Run`: the callback is applied to the entries in turn and the
first error it returns stops the walk. -/
def scan (lib : ImageLib) (cfg : Config) (fs : FS) :
    Stats × SigMap → List WalkEntry → Except String (Stats × SigMap)
  | state, [] => .ok state
  | state, e :: rest =>
    match visit lib cfg fs state e with
    | .error err => .error err
    | .ok state => scan lib cfg fs state rest

/-- The slice `base[:len(base)-len(ext)]` of `handleDuplicateFilename`. -/
def nameWithoutExt (path : String) : String :=
  let base := Base path
  let ext := Ext base
  String.mk (base.data.take (base.data.length - ext.data.length))

/-- The name probed at step `i` of `handleDuplicateFilename`. -/
def newPath (path : String) (i : Nat) : String :=
  let dir := Dir path
  let base := Base path
  let ext := Ext base
  Join dir (nameWithoutExt path ++ "_" ++ toString i ++ ext)

/-- The loop `for i := ...; i < 1000; i++` of `handleDuplicateFilename`, with
`remaining` iterations left: the first probed name for which `os.Stat` fails. -/
def probe (fs : FS) (path : String) : Nat → Nat → Option String
  | 0, _ => none
  | remaining + 1, i =>
    if statOk fs (newPath path i) then probe fs path remaining (i + 1)
    else some (newPath path i)

/-- Go `handleDuplicateFilename`. -/
def handleDuplicateFilename (fs : FS) (path : String) : String :=
  if statOk fs path then
    match probe fs path 999 1 with
    | some p => p
    | none => path
  else path

/-- The result of the moving phase: the count, the filesystem, and the moves
made (source and destination, as printed in verbose mode), latest first. -/
structure Moved where
  moved : Nat
  fs : FS
  log : List (String × String)

/-- The loop `for i := 1; i < len(sortedFiles); i++` of `processDuplicates`,
given the files from index one on. -/
def moveFiles (cfg : Config) : Moved → List String → Except String Moved
  | st, [] => .ok st
  | st, src :: rest =>
    let destPath := Join cfg.OutputDir (Base src)
    let destPath := handleDuplicateFilename st.fs destPath
    match rename st.fs src destPath with
    | .error e => .error ("error moving file " ++ src ++ ": " ++ e)
    | .ok fs => moveFiles cfg { moved := st.moved + 1, fs := fs, log := (src, destPath) :: st.log } rest

/-- Go `processDuplicates`, over the entries of `dd.sigs` in the order in which
the `range` statement yields them, with the configuration `dd.config`. -/
def processDuplicates (srt : SortLib) (cfg : Config) :
    Moved → List (String × List String) → Except String Moved
  | st, [] => .ok st
  | st, (_, files) :: rest =>
    if files.length ≤ 1 then processDuplicates srt cfg st rest
    else
      match SortByResolution srt st.fs files with
      | .error e => .error ("error sorting files: " ++ e)
      | .ok sortedFiles =>
        match moveFiles cfg st (sortedFiles.drop 1) with
        | .error e => .error e
        | .ok st => processDuplicates srt cfg st rest

/-- Go `countDuplicates`. -/
def countDuplicates : SigMap → Nat
  | [] => 0
  | (_, files) :: rest =>
    if files.length > 1 then countDuplicates rest + 1 else countDuplicates rest

/-- Go `DuplicateDetector`: the configuration and the map `sigs`. -/
structure DuplicateDetector where
  config : Config
  sigs : SigMap

/-- Go `NewDuplicateDetector`: the map starts empty. -/
def NewDuplicateDetector (config : Config) : DuplicateDetector :=
  { config := config, sigs := [] }

/-- The result of a run that returned no error: the statistics, the filesystem
and the moves made, and the map `sigs` the detector is left with. -/
structure RunResult where
  stats : Stats
  fs : FS
  log : List (String × String)
  sigs : SigMap

/-- Go `DuplicateDetector.Run`, on the filesystem `fs` and the entries `walk`
that `filepath.WalkDir` yields for the input directory.  The walk appends to
the map `dd.sigs` the detector already holds, which `Run` never resets.
`order` is the order in which `range dd.sigs` yields the entries of the map,
which Go leaves unspecified. -/
def Run (lib : ImageLib) (srt : SortLib) (order : SigMap → List (String × List String))
    (dd : DuplicateDetector) (fs : FS) (walk : List WalkEntry) : Except String RunResult :=
  match scan lib dd.config fs (zeroStats, dd.sigs) walk with
  | .error e => .error ("error walking directory tree: " ++ e)
  | .ok (stats, sigs) =>
    match processDuplicates srt dd.config { moved := 0, fs := fs, log := [] } (order sigs) with
    | .error e => .error e
    | .ok st =>
      .ok { stats := { stats with FilesMoved := st.moved, DuplicatesFound := countDuplicates sigs },
            fs := st.fs, log := st.log, sigs := sigs }

/-! ## Auxiliary notions used in the statements -/

/-- Whether `GetImageDimensions` returns a nil error for the path. -/
def readable (fs : FS) (path : String) : Bool :=
  match GetImageDimensions fs path with
  | .ok _ => true
  | .error _ => false

/-- The `float64` megapixel value `SortByResolution` computes for a path (zero
when the dimensions cannot be read), in units of `2^-72`. -/
def megapixelsAt (fs : FS) (path : String) : Int :=
  match GetImageDimensions fs path with
  | .ok (w, h) => megapixelsOf w h
  | .error _ => 0

/-- The exact pixel area of a path: the integer product of the dimensions that
`GetImageDimensions` reports (zero when they cannot be read). -/
def areaAt (fs : FS) (path : String) : Int :=
  match GetImageDimensions fs path with
  | .ok (w, h) => w * h
  | .error _ => 0

/-- Whether the integer is a value of Go's 64-bit `int`. -/
def fitsInt (x : Int) : Bool := decide (-(2 ^ 63) ≤ x ∧ x < 2 ^ 63)

/-- The ranking that `SortByResolution` returns. -/
def ranking (srt : SortLib) (fs : FS) (paths : List String) : List String :=
  (srt.sortSlice (fun a b => decide (a.megapixels > b.megapixels)) (collectInfo fs paths)).map
    fun f => f.path

/-- Whether the callback of `Run` gets a signature error for the entry: a
regular file with a supported extension on which `GenerateSignature` fails. -/
def signatureFails (lib : ImageLib) (cfg : Config) (fs : FS) (e : WalkEntry) : Bool :=
  !e.err && !e.isDir && IsImageFile e.path &&
    (match GenerateSignature lib fs e.path cfg.ThumbnailSize with
     | .ok _ => false
     | .error _ => true)

/-- Every path filed under a signature got that signature from
`GenerateSignature`. -/
def wellSigned (lib : ImageLib) (cfg : Config) (fs : FS) (sigs : SigMap) : Prop :=
  ∀ sig files, (sig, files) ∈ sigs → ∀ p ∈ files,
    GenerateSignature lib fs p cfg.ThumbnailSize = .ok sig

/-- The destinations `processDuplicates` can choose for the file `src`: the
path `destPath` it builds, and the 999 names `handleDuplicateFilename` probes. -/
def destCandidates (cfg : Config) (src : String) : List String :=
  let destPath := Join cfg.OutputDir (Base src)
  destPath :: (List.range 999).map fun k => newPath destPath (k + 1)

/-- All the paths filed in the groups. -/
def members (groups : List (String × List String)) : List String :=
  groups.flatMap Prod.snd

/-- The files of one group that `processDuplicates` sets out to move: none for
a group of at most one path, else the ranking from index one on. -/
def toMove (srt : SortLib) (fs : FS) (files : List String) : List String :=
  if files.length ≤ 1 then [] else (ranking srt fs files).drop 1

/-- The files that `processDuplicates` sets out to move, over all groups. -/
def moveSet (srt : SortLib) (fs : FS) (groups : List (String × List String)) : List String :=
  groups.flatMap fun g => toMove srt fs g.2

/-- The signature under which the callback of `Run` files the entry, if it
files it: the entry is a regular file with a supported extension for which
`GenerateSignature` succeeds. -/
def signedAs (lib : ImageLib) (cfg : Config) (fs : FS) (e : WalkEntry) : Option String :=
  if e.isDir then none
  else if !IsImageFile e.path then none
  else
    match GenerateSignature lib fs e.path cfg.ThumbnailSize with
    | .ok sig => some sig
    | .error _ => none

/-- The map after the callback has seen the entry. -/
def nextSigs (lib : ImageLib) (cfg : Config) (fs : FS) (sigs : SigMap) (e : WalkEntry) : SigMap :=
  match signedAs lib cfg fs e with
  | none => sigs
  | some sig => appendSig sigs sig e.path

/-- The paths of the walk that the callback files in the map. -/
def signedPaths (lib : ImageLib) (cfg : Config) (fs : FS) (walk : List WalkEntry) : List String :=
  (walk.filter fun e => (signedAs lib cfg fs e).isSome).map fun e => e.path

/-! ## Concrete inputs -/

/-- The insertion sort as `sort.Slice`: the algorithm the library runs on the
short slices of the concrete inputs below, which have at most three elements. -/
def insertionLib : SortLib where
  sortSlice := fun less data => insertionSort less data
  perm := by
    intro α less data
    have hsink : ∀ (x : α) (l : List α), (sinkInto less x l).Perm (x :: l) := by
      intro x l
      induction l with
      | nil => simp [sinkInto]
      | cons y ys ih =>
        simp only [sinkInto]
        split
        · exact (List.Perm.cons y ih).trans (List.Perm.swap x y ys)
        · exact List.Perm.refl _
    have hfold : ∀ (data acc : List α),
        (data.foldl (fun sortedRev x => sinkInto less x sortedRev) acc).Perm (data ++ acc) := by
      intro data
      induction data with
      | nil => intro acc; simp
      | cons x xs ih =>
        intro acc
        simp only [List.foldl_cons]
        refine (ih _).trans ?_
        refine (List.Perm.append_left xs (hsink x acc)).trans ?_
        simp
    unfold insertionSort
    refine (List.reverse_perm _).trans ?_
    simpa using hfold data []
  sorted := by
    intro α key data
    have hsink : ∀ (x : α) (l : List α),
        (sinkInto (fun a b => decide (key a > key b)) x l).Perm (x :: l) := by
      intro x l
      induction l with
      | nil => simp [sinkInto]
      | cons y ys ih =>
        simp only [sinkInto]
        split
        · exact (List.Perm.cons y ih).trans (List.Perm.swap x y ys)
        · exact List.Perm.refl _
    have hasc : ∀ (x : α) (l : List α), l.Pairwise (fun a b => key a ≤ key b) →
        (sinkInto (fun a b => decide (key a > key b)) x l).Pairwise
          (fun a b => key a ≤ key b) := by
      intro x l
      induction l with
      | nil => intro _; simp [sinkInto]
      | cons y ys ih =>
        intro h
        rw [List.pairwise_cons] at h
        simp only [sinkInto]
        split
        · rename_i hlt
          have hlt2 : key y < key x := by simpa using hlt
          rw [List.pairwise_cons]
          refine ⟨?_, ih h.2⟩
          intro b hb
          rcases List.mem_cons.mp ((hsink x ys).mem_iff.mp hb) with rfl | hb2
          · exact le_of_lt hlt2
          · exact h.1 b hb2
        · rename_i hge
          have hge2 : key x ≤ key y := by simpa using hge
          rw [List.pairwise_cons]
          refine ⟨?_, List.pairwise_cons.mpr h⟩
          intro b hb
          rcases List.mem_cons.mp hb with rfl | hb2
          · exact hge2
          · exact le_trans hge2 (h.1 b hb2)
    have hfold : ∀ (data acc : List α), acc.Pairwise (fun a b => key a ≤ key b) →
        (data.foldl (fun sortedRev x => sinkInto (fun a b => decide (key a > key b)) x sortedRev)
          acc).Pairwise (fun a b => key a ≤ key b) := by
      intro data
      induction data with
      | nil => intro acc h; exact h
      | cons x xs ih =>
        intro acc h
        simp only [List.foldl_cons]
        exact ih _ (hasc x acc h)
    unfold insertionSort
    rw [List.pairwise_reverse]
    exact hfold data [] List.Pairwise.nil


/-- A file that decodes to the given picture and declares the given size. -/
def picture (pixels : List Nat) (w h : Int) : File :=
  { decoded := some { width := 2, height := 2, pixels := pixels }, config := some (w, h) }

/-- An output directory that holds only `out/dup.jpg`. -/
def occupiedDir : FS := fun p => if p = "out/dup.jpg" then some (picture [7] 4 4) else none

/-- The names `out/dup.jpg`, `out/dup_1.jpg`, ..., `out/dup_999.jpg`. -/
def crowdedNames : List String :=
  "out/dup.jpg" :: (List.range 999).map fun k => "out/dup_" ++ toString (k + 1) ++ ".jpg"

/-- An output directory in which every name of `crowdedNames` is taken. -/
def crowdedDir : FS := fun p => if p ∈ crowdedNames then some (picture [7] 4 4) else none

/-- Two PNG headers: `s.png` declares 134217729 x 134217727 pixels and `l.png`
declares 134217728 x 134217728 pixels. -/
def hugeHeaders : FS := fun p =>
  if p = "s.png" then some { decoded := none, config := some (134217729, 134217727) }
  else if p = "l.png" then some { decoded := none, config := some (134217728, 134217728) }
  else none

/-- A small instance of the library: a thumbnail of non-positive size is the
empty picture, as `imaging.Thumbnail` returns; `png.Encode` rejects the empty
picture without writing, as the standard encoder does; `jpeg.Encode` accepts
it; the digest is the printed byte list after `md5-of-`. -/
def toyLib : ImageLib where
  thumbnail := fun img w h =>
    if w ≤ 0 ∨ h ≤ 0 then { width := 0, height := 0, pixels := [] } else img
  pngEncode := fun img =>
    if img.width = 0 ∨ img.height = 0 then ([], false) else (1 :: img.pixels, true)
  jpegEncode := fun img => (2 :: img.pixels, true)
  md5Hex := fun bytes => "md5-of-" ++ toString bytes

/-- A directory with one readable picture. -/
def onePicture : FS := fun p => if p = "in/a.jpg" then some (picture [1, 2, 3, 4] 20 10) else none

/-- Two copies of one picture, `in/a.jpg` the larger, and a corrupt file. -/
def twinsAndCorrupt : FS := fun p =>
  if p = "in/a.jpg" then some (picture [1, 2, 3, 4] 20 10)
  else if p = "in/b.jpg" then some (picture [1, 2, 3, 4] 10 5)
  else if p = "in/c.jpg" then some { decoded := none, config := none }
  else none

/-- The walk of `in` over `twinsAndCorrupt`. -/
def twinsWalk : List WalkEntry :=
  [⟨"in", true, false⟩, ⟨"in/a.jpg", false, false⟩, ⟨"in/b.jpg", false, false⟩,
   ⟨"in/c.jpg", false, false⟩]

/-- A configuration whose output directory lies outside the input directory. -/
def outsideCfg : Config :=
  { InputDir := "in", OutputDir := "out", ThumbnailSize := 200, Verbose := false }

/-- The configuration `main` builds for `-dir in`: the output directory is
`in/duplicates`. -/
def defaultCfg : Config :=
  { InputDir := "in", OutputDir := Join "in" "duplicates", ThumbnailSize := 200,
    Verbose := false }

/-- Two copies of one picture, `in/a.jpg` the larger, and nothing else. -/
def twins : FS := fun p =>
  if p = "in/a.jpg" then some (picture [1, 2, 3, 4] 20 10)
  else if p = "in/b.jpg" then some (picture [1, 2, 3, 4] 10 5)
  else none

/-- Two copies of one picture; the header of `in/b.jpg` cannot be read. -/
def twinsOneUnreadable : FS := fun p =>
  if p = "in/a.jpg" then some (picture [1, 2, 3, 4] 20 10)
  else if p = "in/b.jpg" then
    some { decoded := some { width := 2, height := 2, pixels := [1, 2, 3, 4] }, config := none }
  else none

/-- The walk of `in` over `twins` and over `twinsOneUnreadable`. -/
def pairWalk : List WalkEntry :=
  [⟨"in", true, false⟩, ⟨"in/a.jpg", false, false⟩, ⟨"in/b.jpg", false, false⟩]

/-- The walk of `in` after the run of `defaultCfg` on `twins`, which has moved
`in/b.jpg` to `in/duplicates/b.jpg`. -/
def secondWalk : List WalkEntry :=
  [⟨"in", true, false⟩, ⟨"in/a.jpg", false, false⟩, ⟨"in/duplicates", true, false⟩,
   ⟨"in/duplicates/b.jpg", false, false⟩]

/-- The walk of `in` after the run of `outsideCfg` on `twinsAndCorrupt`, which
has moved `in/b.jpg` to `out/b.jpg`. -/
def afterWalk : List WalkEntry :=
  [⟨"in", true, false⟩, ⟨"in/a.jpg", false, false⟩, ⟨"in/c.jpg", false, false⟩]

/-- The walk of `in` after the run of `outsideCfg` on `twins`, which has moved
`in/b.jpg` to `out/b.jpg`. -/
def keeperWalk : List WalkEntry :=
  [⟨"in", true, false⟩, ⟨"in/a.jpg", false, false⟩]

/-- Whether the call returned a nil error. -/
def succeeded {α : Type} (x : Except String α) : Bool :=
  match x with
  | .ok _ => true
  | .error _ => false

/-! ## Rounding to `float64` is monotone -/

theorem log2Fuel_spec (fuel n : Nat) (hfuel : n ≤ fuel) (hn : 1 ≤ n) :
    2 ^ log2Fuel fuel n ≤ n ∧ n < 2 ^ (log2Fuel fuel n + 1) := by
  induction fuel generalizing n with
  | zero => omega
  | succ f ih =>
    simp only [log2Fuel]
    by_cases h2 : n < 2
    · simp only [h2, if_true]
      constructor <;> omega
    · simp only [h2, if_false]
      obtain ⟨i1, i2⟩ := ih (n / 2) (by omega) (by omega)
      constructor
      · rw [pow_succ]
        omega
      · rw [pow_succ]
        omega

theorem floorLog2_spec (n : Nat) (hn : 1 ≤ n) :
    2 ^ floorLog2 n ≤ n ∧ n < 2 ^ (floorLog2 n + 1) :=
  log2Fuel_spec n n (le_refl _) hn

theorem floorLog2_zero : floorLog2 0 = 0 := rfl

theorem floorLog2_mono (a b : Nat) (h : a ≤ b) : floorLog2 a ≤ floorLog2 b := by
  by_cases ha : a = 0
  · subst ha
    simp [floorLog2_zero]
  · have h1 := floorLog2_spec a (by omega)
    have h2 := floorLog2_spec b (by omega)
    by_contra hlt
    have hlt' : floorLog2 b + 1 ≤ floorLog2 a := by omega
    have := Nat.pow_le_pow_right (by decide : 1 ≤ 2) hlt'
    omega

theorem roundToFloat64_bounds (p q : Nat) :
    (p * 2 ^ 72 / (q * 2 ^ (floorLog2 (p * 2 ^ 72 / q) - 52))) * 2 ^ (floorLog2 (p * 2 ^ 72 / q) - 52)
        ≤ roundToFloat64 p q ∧
    roundToFloat64 p q
      ≤ (p * 2 ^ 72 / (q * 2 ^ (floorLog2 (p * 2 ^ 72 / q) - 52)) + 1)
          * 2 ^ (floorLog2 (p * 2 ^ 72 / q) - 52) := by
  simp only [roundToFloat64]
  split
  · constructor
    · exact Nat.mul_le_mul_right _ (Nat.le_succ _)
    · exact le_refl _
  · constructor
    · exact le_refl _
    · exact Nat.mul_le_mul_right _ (Nat.le_succ _)

theorem roundToFloat64_mono (p p' q : Nat) (hq : 0 < q) (h : p ≤ p') :
    roundToFloat64 p q ≤ roundToFloat64 p' q := by
  have hn : p * 2 ^ 72 ≤ p' * 2 ^ 72 := Nat.mul_le_mul_right _ h
  have ht : p * 2 ^ 72 / q ≤ p' * 2 ^ 72 / q := Nat.div_le_div_right hn
  have hs : floorLog2 (p * 2 ^ 72 / q) - 52 ≤ floorLog2 (p' * 2 ^ 72 / q) - 52 :=
    Nat.sub_le_sub_right (floorLog2_mono _ _ ht) 52
  obtain ⟨_, hup⟩ := roundToFloat64_bounds p q
  obtain ⟨hlow, _⟩ := roundToFloat64_bounds p' q
  rcases Nat.lt_or_eq_of_le hs with hlt | heq
  · -- the shift grows: the smaller value stays below 2^(53+s), the larger reaches it
    refine le_trans hup (le_trans ?_ hlow)
    rw [← Nat.div_div_eq_div_mul, ← Nat.div_div_eq_div_mul]
    generalize p * 2 ^ 72 / q = t at hlt ⊢
    generalize p' * 2 ^ 72 / q = t' at hlt ⊢
    generalize hsd : floorLog2 t - 52 = s at hlt ⊢
    generalize hsd' : floorLog2 t' - 52 = s' at hlt ⊢
    have hm : t / 2 ^ s + 1 ≤ 2 ^ 53 := by
      by_cases ht0 : t = 0
      · rw [ht0]
        simp
      · have hspec := (floorLog2_spec t (Nat.pos_of_ne_zero ht0)).2
        have hle : floorLog2 t + 1 ≤ s + 53 := by omega
        have hpow := Nat.pow_le_pow_right (by decide : 1 ≤ 2) hle
        have hlt2 : t < 2 ^ 53 * 2 ^ s := by
          rw [← pow_add, Nat.add_comm 53 s]
          omega
        have := (Nat.div_lt_iff_lt_mul (Nat.two_pow_pos s)).mpr hlt2
        omega
    have hm' : 2 ^ 52 ≤ t' / 2 ^ s' := by
      have hfl : floorLog2 t' = s' + 52 := by omega
      have ht1 : 1 ≤ t' := by
        by_contra h0
        have h00 : t' = 0 := by omega
        rw [h00, floorLog2_zero] at hfl
        omega
      have hspec := (floorLog2_spec t' ht1).1
      rw [hfl, Nat.add_comm, pow_add] at hspec
      exact (Nat.le_div_iff_mul_le (Nat.two_pow_pos s')).mpr hspec
    calc (t / 2 ^ s + 1) * 2 ^ s
        ≤ 2 ^ 53 * 2 ^ s := Nat.mul_le_mul_right _ hm
      _ = 2 ^ 52 * 2 ^ (s + 1) := by rw [pow_succ]; ring
      _ ≤ 2 ^ 52 * 2 ^ s' :=
          Nat.mul_le_mul_left _ (Nat.pow_le_pow_right (by decide : 1 ≤ 2) hlt)
      _ ≤ t' / 2 ^ s' * 2 ^ s' := Nat.mul_le_mul_right _ hm'
  · -- the same shift: compare the quotients, then the remainders
    simp only [roundToFloat64]
    rw [← heq]
    generalize floorLog2 (p * 2 ^ 72 / q) - 52 = s
    have hd : 0 < q * 2 ^ s := Nat.mul_pos hq (Nat.two_pow_pos s)
    generalize hdd : q * 2 ^ s = d at hd ⊢
    have hmm : p * 2 ^ 72 / d ≤ p' * 2 ^ 72 / d := Nat.div_le_div_right hn
    have e1 := Nat.div_add_mod (p * 2 ^ 72) d
    have e2 := Nat.div_add_mod (p' * 2 ^ 72) d
    generalize p * 2 ^ 72 / d = m at hmm e1 ⊢
    generalize p' * 2 ^ 72 / d = m' at hmm e2 ⊢
    generalize hr : p * 2 ^ 72 % d = r at e1 ⊢
    generalize hr' : p' * 2 ^ 72 % d = r' at e2 ⊢
    have hrd : r < d := by rw [← hr]; exact Nat.mod_lt _ hd
    rcases Nat.lt_or_eq_of_le hmm with hmlt | hmeq
    · have hstep : (m + 1) * 2 ^ s ≤ m' * 2 ^ s := Nat.mul_le_mul_right _ hmlt
      have hle1 : m * 2 ^ s ≤ (m + 1) * 2 ^ s := Nat.mul_le_mul_right _ (Nat.le_succ _)
      have hle2 : m' * 2 ^ s ≤ (m' + 1) * 2 ^ s := Nat.mul_le_mul_right _ (Nat.le_succ _)
      split <;> split <;> omega
    · subst hmeq
      have hrr : r ≤ r' := by
        have : d * m + r ≤ d * m + r' := by rw [e1, e2]; exact hn
        omega
      have hle1 : m * 2 ^ s ≤ (m + 1) * 2 ^ s := Nat.mul_le_mul_right _ (Nat.le_succ _)
      split
      · rename_i hup1
        split
        · exact le_refl _
        · rename_i hup2
          exfalso
          apply hup2
          rcases hup1 with h1 | ⟨h1, h2⟩
          · left; omega
          · by_cases hrr' : r = r'
            · right; exact ⟨by omega, h2⟩
            · left; omega
      · split
        · exact hle1
        · exact le_refl _

theorem float64OfInt_mono (a b : Int) (h : a ≤ b) : float64OfInt a ≤ float64OfInt b := by
  unfold float64OfInt
  by_cases ha : 0 ≤ a
  · have hb : 0 ≤ b := le_trans ha h
    simp only [ha, hb, if_true]
    exact Int.ofNat_le.mpr (roundToFloat64_mono _ _ 1 (by decide) (by omega))
  · by_cases hb : 0 ≤ b
    · simp only [ha, hb, if_true, if_false]
      have h1 : (0 : Int) ≤ (roundToFloat64 a.natAbs 1 : Int) := Int.ofNat_nonneg _
      have h2 : (0 : Int) ≤ (roundToFloat64 b.natAbs 1 : Int) := Int.ofNat_nonneg _
      omega
    · simp only [ha, hb, if_false]
      have := Int.ofNat_le.mpr (roundToFloat64_mono b.natAbs a.natAbs 1 (by decide) (by omega))
      omega

theorem float64DivConst_mono (x y : Int) (c : Nat) (hc : 0 < c) (h : x ≤ y) :
    float64DivConst x c ≤ float64DivConst y c := by
  have hq : 0 < 2 ^ 72 * c := Nat.mul_pos (Nat.two_pow_pos 72) hc
  unfold float64DivConst
  by_cases hx : 0 ≤ x
  · have hy : 0 ≤ y := le_trans hx h
    simp only [hx, hy, if_true]
    exact Int.ofNat_le.mpr (roundToFloat64_mono _ _ _ hq (by omega))
  · by_cases hy : 0 ≤ y
    · simp only [hx, hy, if_true, if_false]
      have h1 : (0 : Int) ≤ (roundToFloat64 x.natAbs (2 ^ 72 * c) : Int) := Int.ofNat_nonneg _
      have h2 : (0 : Int) ≤ (roundToFloat64 y.natAbs (2 ^ 72 * c) : Int) := Int.ofNat_nonneg _
      omega
    · simp only [hx, hy, if_false]
      have := Int.ofNat_le.mpr (roundToFloat64_mono y.natAbs x.natAbs _ hq (by omega))
      omega

theorem wrapInt_of_fits (x : Int) (h : fitsInt x = true) : wrapInt x = x := by
  simp only [fitsInt, decide_eq_true_eq] at h
  unfold wrapInt
  norm_num at h ⊢
  omega

theorem megapixelsAt_eq (fs : FS) (p : String) :
    megapixelsAt fs p = float64DivConst (float64OfInt (wrapInt (areaAt fs p))) 1000000 := by
  have hzero : float64DivConst (float64OfInt (wrapInt 0)) 1000000 = 0 := by decide
  unfold megapixelsAt areaAt
  cases h : GetImageDimensions fs p with
  | error e => exact hzero.symm
  | ok d => rfl

theorem megapixelsAt_mono (fs : FS) (p q : String) (hp : fitsInt (areaAt fs p) = true)
    (hq : fitsInt (areaAt fs q) = true) (h : areaAt fs p ≤ areaAt fs q) :
    megapixelsAt fs p ≤ megapixelsAt fs q := by
  rw [megapixelsAt_eq, megapixelsAt_eq, wrapInt_of_fits _ hp, wrapInt_of_fits _ hq]
  exact float64DivConst_mono _ _ _ (by decide) (float64OfInt_mono _ _ h)

/-! ## Lemmas on `SortByResolution` -/

theorem collectInfo_paths (fs : FS) (paths : List String) :
    (collectInfo fs paths).map (fun f => f.path) = paths.filter (readable fs) := by
  induction paths with
  | nil => rfl
  | cons p ps ih =>
    cases h : GetImageDimensions fs p with
    | error e =>
      have hr : readable fs p = false := by simp [readable, h]
      simp [collectInfo, h, hr, ih]
    | ok d =>
      obtain ⟨w, ht⟩ := d
      have hr : readable fs p = true := by simp [readable, h]
      simp [collectInfo, h, hr, ih]

theorem collectInfo_megapixels (fs : FS) (paths : List String) :
    ∀ f ∈ collectInfo fs paths, f.megapixels = megapixelsAt fs f.path := by
  induction paths with
  | nil => intro f hf; simp [collectInfo] at hf
  | cons p ps ih =>
    intro f hf
    simp only [collectInfo] at hf
    cases h : GetImageDimensions fs p with
    | error e =>
      rw [h] at hf
      exact ih f hf
    | ok d =>
      obtain ⟨w, ht⟩ := d
      rw [h] at hf
      rcases List.mem_cons.mp hf with rfl | hf'
      · simp [megapixelsAt, h]
      · exact ih f hf'

theorem SortByResolution_eq (srt : SortLib) (fs : FS) (paths : List String) :
    SortByResolution srt fs paths = .ok (ranking srt fs paths) := rfl

theorem ranking_perm (srt : SortLib) (fs : FS) (paths : List String) :
    (ranking srt fs paths).Perm (paths.filter (readable fs)) := by
  unfold ranking
  rw [← collectInfo_paths]
  exact (srt.perm _ _).map _

theorem ranking_descending (srt : SortLib) (fs : FS) (paths : List String) :
    (ranking srt fs paths).Pairwise (fun p q => megapixelsAt fs q ≤ megapixelsAt fs p) := by
  unfold ranking
  rw [List.pairwise_map]
  have hs := srt.sorted (fun f : fileInfo => f.megapixels) (collectInfo fs paths)
  have hmem : ∀ f ∈ srt.sortSlice (fun a b : fileInfo => decide (a.megapixels > b.megapixels))
      (collectInfo fs paths), f.megapixels = megapixelsAt fs f.path := by
    intro f hf
    exact collectInfo_megapixels fs paths f ((srt.perm _ _).mem_iff.mp hf)
  refine List.Pairwise.imp_of_mem ?_ hs
  intro a b ha hb hab
  rw [← hmem a ha, ← hmem b hb]
  exact hab

/-! ## Lemmas on `handleDuplicateFilename` -/

theorem extRev_suffix (l acc : List Char) : ∃ pre, l.reverse ++ acc = pre ++ extRev l acc := by
  induction l generalizing acc with
  | nil => exact ⟨acc, by simp [extRev]⟩
  | cons c rest ih =>
    simp only [extRev]
    split
    · exact ⟨(c :: rest).reverse ++ acc, by simp⟩
    · split
      · exact ⟨rest.reverse, by simp⟩
      · obtain ⟨pre, hpre⟩ := ih (c :: acc)
        exact ⟨pre, by simpa using hpre⟩

theorem nameWithoutExt_append_ext (path : String) :
    nameWithoutExt path ++ Ext (Base path) = Base path := by
  obtain ⟨pre, hpre⟩ := extRev_suffix (Base path).data.reverse []
  simp only [List.reverse_reverse, List.append_nil] at hpre
  have hlen : (Base path).data.length - (Ext (Base path)).data.length = pre.length := by
    have h := congrArg List.length hpre
    simp only [List.length_append] at h
    simp only [Ext]
    omega
  have htake : (Base path).data.take pre.length = pre := by
    conv_lhs => rw [hpre]
    simp
  apply String.ext
  simp only [String.data_append, nameWithoutExt, hlen, htake]
  conv_rhs => rw [hpre]
  rfl

theorem probe_first_free (fs : FS) (path : String) (remaining start i : Nat)
    (hlo : start ≤ i) (hhi : i < start + remaining)
    (hfree : statOk fs (newPath path i) = false)
    (htaken : ∀ j, start ≤ j → j < i → statOk fs (newPath path j) = true) :
    probe fs path remaining start = some (newPath path i) := by
  induction remaining generalizing start with
  | zero => omega
  | succ n ih =>
    simp only [probe]
    by_cases hs : start = i
    · subst hs
      simp [hfree]
    · have hlt : start < i := lt_of_le_of_ne hlo hs
      rw [htaken start (le_refl _) hlt]
      simp only [if_true]
      exact ih (start + 1) (by omega) (by omega) (fun j hj hji => htaken j (by omega) hji)

theorem probe_exhausted (fs : FS) (path : String) (remaining start : Nat)
    (htaken : ∀ j, start ≤ j → j < start + remaining → statOk fs (newPath path j) = true) :
    probe fs path remaining start = none := by
  induction remaining generalizing start with
  | zero => rfl
  | succ n ih =>
    simp only [probe]
    rw [htaken start (le_refl _) (by omega)]
    simp only [if_true]
    exact ih (start + 1) (fun j hj hji => htaken j (by omega) (by omega))

theorem probe_is_free (fs : FS) (path : String) (remaining start : Nat) (p : String)
    (h : probe fs path remaining start = some p) : statOk fs p = false := by
  induction remaining generalizing start with
  | zero => simp [probe] at h
  | succ n ih =>
    simp only [probe] at h
    by_cases hs : statOk fs (newPath path start) = true
    · rw [hs] at h
      simp only [if_true] at h
      exact ih (start + 1) h
    · have hf : statOk fs (newPath path start) = false := by simpa using hs
      rw [hf] at h
      simp at h
      rw [← h]
      exact hf

theorem probe_is_candidate (fs : FS) (path : String) (remaining start : Nat) (p : String)
    (h : probe fs path remaining start = some p) :
    ∃ i, start ≤ i ∧ i < start + remaining ∧ p = newPath path i := by
  induction remaining generalizing start with
  | zero => simp [probe] at h
  | succ n ih =>
    simp only [probe] at h
    by_cases hs : statOk fs (newPath path start) = true
    · rw [hs] at h
      simp only [if_true] at h
      obtain ⟨i, h1, h2, h3⟩ := ih (start + 1) h
      exact ⟨i, by omega, by omega, h3⟩
    · have hf : statOk fs (newPath path start) = false := by simpa using hs
      rw [hf] at h
      simp at h
      exact ⟨start, le_refl _, by omega, h.symm⟩

theorem handleDuplicateFilename_of_free (fs : FS) (path : String) (h : statOk fs path = false) :
    handleDuplicateFilename fs path = path := by
  simp [handleDuplicateFilename, h]

theorem handleDuplicateFilename_of_taken (fs : FS) (path : String) (i : Nat)
    (hlo : 1 ≤ i) (hhi : i ≤ 999) (h : statOk fs path = true)
    (hfree : statOk fs (newPath path i) = false)
    (htaken : ∀ j, 1 ≤ j → j < i → statOk fs (newPath path j) = true) :
    handleDuplicateFilename fs path = newPath path i := by
  simp [handleDuplicateFilename, h,
    probe_first_free fs path 999 1 i hlo (by omega) hfree htaken]

theorem handleDuplicateFilename_of_exhausted (fs : FS) (path : String)
    (htaken : ∀ j, 1 ≤ j → j ≤ 999 → statOk fs (newPath path j) = true) :
    handleDuplicateFilename fs path = path := by
  unfold handleDuplicateFilename
  rw [probe_exhausted fs path 999 1 (fun j h1 h2 => htaken j h1 (by omega))]
  simp

/-! ## Probe names below a clean directory -/

theorem digitChar_ne (k : Nat) (hk : k < 10) :
    Nat.digitChar k ≠ '/' ∧ Nat.digitChar k ≠ '.' := by
  interval_cases k <;> decide

theorem toDigitsCore_chars (fuel n : Nat) (ds : List Char)
    (hds : ∀ c ∈ ds, c ≠ '/' ∧ c ≠ '.') :
    ∀ c ∈ Nat.toDigitsCore 10 fuel n ds, c ≠ '/' ∧ c ≠ '.' := by
  induction fuel generalizing n ds with
  | zero => simpa [Nat.toDigitsCore] using hds
  | succ f ih =>
    have hd := digitChar_ne (n % 10) (Nat.mod_lt _ (by decide))
    have hcons : ∀ c ∈ Nat.digitChar (n % 10) :: ds, c ≠ '/' ∧ c ≠ '.' := by
      intro c hc
      rcases List.mem_cons.mp hc with rfl | hc'
      · exact hd
      · exact hds c hc'
    simp only [Nat.toDigitsCore]
    split
    · exact hcons
    · exact ih _ _ hcons

theorem toString_chars (i : Nat) : ∀ c ∈ (toString i).data, c ≠ '/' ∧ c ≠ '.' := by
  have : (toString i).data = Nat.toDigits 10 i := rfl
  rw [this]
  exact toDigitsCore_chars _ _ [] (by simp)

theorem splitElements_of_no_separator (l : List Char) (h : '/' ∉ l) : splitElements l = [l] := by
  induction l with
  | nil => rfl
  | cons c rest ih =>
    have hc : c ≠ '/' := fun heq => h (by rw [heq]; exact List.mem_cons_self _ _)
    have hrest : '/' ∉ rest := fun hm => h (List.mem_cons_of_mem _ hm)
    simp [splitElements, ih hrest, isPathSeparator, hc]

theorem cleanChars_out (c : Char) (elem : List Char) (hc : c ≠ '.') (hc' : c ≠ '/')
    (h : '/' ∉ elem) :
    cleanChars ('o' :: 'u' :: 't' :: '/' :: c :: elem) = 'o' :: 'u' :: 't' :: '/' :: c :: elem := by
  have hsplit : splitElements (c :: elem) = [c :: elem] :=
    splitElements_of_no_separator _ (by
      intro hm
      rcases List.mem_cons.mp hm with heq | hm'
      · exact hc' heq.symm
      · exact h hm')
  have h1 : (c :: elem) ≠ ['.'] := by
    intro heq
    simp only [List.cons.injEq] at heq
    exact hc heq.1
  have h2 : (c :: elem) ≠ ['.', '.'] := by
    intro heq
    simp only [List.cons.injEq] at heq
    exact hc heq.1
  have hs1 : splitElements ('/' :: c :: elem) = [[], c :: elem] := by
    rw [splitElements, hsplit]
    rfl
  have hs2 : splitElements ('t' :: '/' :: c :: elem) = [['t'], c :: elem] := by
    rw [splitElements, hs1]
    rfl
  have hs3 : splitElements ('u' :: 't' :: '/' :: c :: elem) = [['u', 't'], c :: elem] := by
    rw [splitElements, hs2]
    rfl
  have hs4 : splitElements ('o' :: 'u' :: 't' :: '/' :: c :: elem)
      = [['o', 'u', 't'], c :: elem] := by
    rw [splitElements, hs3]
    rfl
  simp [cleanChars, hs4, isPathSeparator, cleanStep, joinElements, h1, h2]

theorem newPath_out (d : String) (c : Char) (nm ext : List Char) (i : Nat)
    (hdir : Dir d = "out") (hname : nameWithoutExt d = String.mk (c :: nm))
    (hext : Ext (Base d) = String.mk ext) (hc : c ≠ '.') (hc' : c ≠ '/')
    (hnm : '/' ∉ nm) (hx : '/' ∉ ext) :
    newPath d i
      = String.mk ('o' :: 'u' :: 't' :: '/' :: c :: (nm ++ '_' :: ((toString i).data ++ ext))) := by
  have hno : '/' ∉ nm ++ '_' :: ((toString i).data ++ ext) := by
    intro hm
    rcases List.mem_append.mp hm with h1 | h1
    · exact hnm h1
    · rcases List.mem_cons.mp h1 with h2 | h2
      · exact absurd h2 (by decide)
      · rcases List.mem_append.mp h2 with h3 | h3
        · exact (toString_chars i '/' h3).1 rfl
        · exact hx h3
  have hout : ("out" : String).data = ['o', 'u', 't'] := rfl
  have hus : ("_" : String).data = ['_'] := rfl
  simp only [newPath, hdir, hname, hext, Join, hout, String.data_append, hus]
  simp only [ne_eq, List.cons_ne_nil, not_false_eq_true, if_true, List.cons_append, List.nil_append,
    List.append_assoc]
  rw [cleanChars_out c _ hc hc' hno]

theorem destCandidates_head (cfg : Config) (src : String) (c : Char) (nm ext : List Char)
    (hjoin : (Join cfg.OutputDir (Base src)).data.head? = some 'o')
    (hdir : Dir (Join cfg.OutputDir (Base src)) = "out")
    (hname : nameWithoutExt (Join cfg.OutputDir (Base src)) = String.mk (c :: nm))
    (hext : Ext (Base (Join cfg.OutputDir (Base src))) = String.mk ext)
    (hc : c ≠ '.') (hc' : c ≠ '/') (hnm : '/' ∉ nm) (hx : '/' ∉ ext) :
    ∀ q ∈ destCandidates cfg src, q.data.head? = some 'o' := by
  intro q hq
  unfold destCandidates at hq
  rcases List.mem_cons.mp hq with rfl | hq'
  · exact hjoin
  · obtain ⟨k, _, hk⟩ := List.mem_map.mp hq'
    rw [← hk, newPath_out _ c nm ext (k + 1) hdir hname hext hc hc' hnm hx]
    rfl

/-! ## Lemmas on the scanning phase -/

theorem appendSig_mem (m : SigMap) (sig path k : String) (files : List String)
    (h : (k, files) ∈ appendSig m sig path) :
    (k, files) ∈ m ∨ (k = sig ∧ ∃ old, files = old ++ [path] ∧ ((k, old) ∈ m ∨ old = [])) := by
  induction m with
  | nil =>
    simp only [appendSig, List.mem_singleton, Prod.mk.injEq] at h
    exact Or.inr ⟨h.1, [], by simp [h.2], Or.inr rfl⟩
  | cons entry rest ih =>
    obtain ⟨k0, f0⟩ := entry
    simp only [appendSig] at h
    split at h
    · rename_i hk
      rcases List.mem_cons.mp h with heq | hmem
      · simp only [Prod.mk.injEq] at heq
        refine Or.inr ⟨heq.1.trans hk, f0, heq.2, Or.inl ?_⟩
        rw [heq.1]
        exact List.mem_cons_self _ _
      · exact Or.inl (List.mem_cons_of_mem _ hmem)
    · rcases List.mem_cons.mp h with heq | hmem
      · exact Or.inl (by rw [heq]; exact List.mem_cons_self _ _)
      · rcases ih hmem with h1 | ⟨h1, old, h2, h3⟩
        · exact Or.inl (List.mem_cons_of_mem _ h1)
        · refine Or.inr ⟨h1, old, h2, ?_⟩
          rcases h3 with h3 | h3
          · exact Or.inl (List.mem_cons_of_mem _ h3)
          · exact Or.inr h3

theorem visit_wellSigned (lib : ImageLib) (cfg : Config) (fs : FS) (st st' : Stats × SigMap)
    (e : WalkEntry) (h : visit lib cfg fs st e = .ok st') (hw : wellSigned lib cfg fs st.2) :
    wellSigned lib cfg fs st'.2 := by
  obtain ⟨stats, sigs⟩ := st
  simp only [visit] at h
  split at h
  · cases h
  · split at h
    · cases h; exact hw
    · split at h
      · cases h; exact hw
      · split at h
        · cases h; exact hw
        · rename_i sig hsig
          cases h
          intro k files hmem p hp
          rcases appendSig_mem sigs sig e.path k files hmem with h1 | ⟨h1, old, h2, h3⟩
          · exact hw k files h1 p hp
          · subst h1 h2
            rcases List.mem_append.mp hp with hp' | hp'
            · rcases h3 with h3 | h3
              · exact hw k old h3 p hp'
              · subst h3; simp at hp'
            · simp only [List.mem_singleton] at hp'
              subst hp'
              exact hsig

theorem scan_wellSigned (lib : ImageLib) (cfg : Config) (fs : FS) (walk : List WalkEntry)
    (st st' : Stats × SigMap) (h : scan lib cfg fs st walk = .ok st')
    (hw : wellSigned lib cfg fs st.2) : wellSigned lib cfg fs st'.2 := by
  induction walk generalizing st with
  | nil =>
    simp only [scan] at h
    cases h
    exact hw
  | cons e rest ih =>
    simp only [scan] at h
    cases hv : visit lib cfg fs st e with
    | error err => rw [hv] at h; cases h
    | ok st1 =>
      rw [hv] at h
      exact ih st1 h (visit_wellSigned lib cfg fs st st1 e hv hw)

theorem visit_of_signatureFails (lib : ImageLib) (cfg : Config) (fs : FS) (st : Stats × SigMap)
    (e : WalkEntry) (h : signatureFails lib cfg fs e = true) :
    ∃ stats, visit lib cfg fs st e = .ok (stats, st.2) := by
  obtain ⟨stats, sigs⟩ := st
  simp only [signatureFails, Bool.and_eq_true, Bool.not_eq_true'] at h
  obtain ⟨⟨⟨h1, h2⟩, h3⟩, h4⟩ := h
  simp only [visit, h1, h2, h3]
  cases hg : GenerateSignature lib fs e.path cfg.ThumbnailSize with
  | error err => exact ⟨_, rfl⟩
  | ok sig => rw [hg] at h4; simp at h4

theorem visit_sigs_congr (lib : ImageLib) (cfg : Config) (fs : FS) (stats stats' : Stats)
    (sigs : SigMap) (e : WalkEntry) :
    (visit lib cfg fs (stats, sigs) e).map Prod.snd
      = (visit lib cfg fs (stats', sigs) e).map Prod.snd := by
  simp only [visit]
  split
  · rfl
  · split
    · rfl
    · split
      · rfl
      · split <;> rfl

theorem scan_sigs_filter (lib : ImageLib) (cfg : Config) (fs : FS) (walk : List WalkEntry)
    (stats stats' : Stats) (sigs : SigMap) :
    (scan lib cfg fs (stats, sigs) walk).map Prod.snd
      = (scan lib cfg fs (stats', sigs)
          (walk.filter fun e => !signatureFails lib cfg fs e)).map Prod.snd := by
  induction walk generalizing stats stats' sigs with
  | nil => rfl
  | cons e rest ih =>
    by_cases hf : signatureFails lib cfg fs e = true
    · obtain ⟨stats1, h1⟩ := visit_of_signatureFails lib cfg fs (stats, sigs) e hf
      simp only [List.filter_cons, hf, scan, h1]
      exact ih stats1 stats' sigs
    · have hf' : signatureFails lib cfg fs e = false := by simpa using hf
      simp only [List.filter_cons, hf', scan]
      have hc := visit_sigs_congr lib cfg fs stats stats' sigs e
      cases hv : visit lib cfg fs (stats, sigs) e with
      | error err =>
        rw [hv] at hc
        cases hv' : visit lib cfg fs (stats', sigs) e with
        | error err' =>
          rw [hv'] at hc
          simp only [Except.map] at hc
          simp [Except.map, hc]
        | ok st1' => rw [hv'] at hc; simp [Except.map] at hc
      | ok st1 =>
        rw [hv] at hc
        cases hv' : visit lib cfg fs (stats', sigs) e with
        | error err' => rw [hv'] at hc; simp [Except.map] at hc
        | ok st1' =>
          rw [hv'] at hc
          simp only [Except.map, Except.ok.injEq] at hc
          obtain ⟨s1, g1⟩ := st1
          obtain ⟨s1', g1'⟩ := st1'
          simp only at hc
          subst hc
          simpa using ih s1 s1' g1

/-! ## The extension filter -/

/-- C10, counterexample: `photo.jpg` and `photo.JPG` have the same name and the
same extension up to letter case, yet `IsImageFile` accepts the first and
rejects the second. -/
theorem IsImageFile_case_counterexample :
    nameWithoutExt "photo.JPG" = nameWithoutExt "photo.jpg" ∧
    (Ext "photo.JPG").data.map Char.toLower = (Ext "photo.jpg").data ∧
    IsImageFile "photo.jpg" = true ∧ IsImageFile "photo.JPG" = false := by
  decide

/-- C10, amended: `IsImageFile` accepts a path exactly when its final extension
is, letter for letter, one of `.jpg .jpeg .png .bmp .gif .tiff .webp`. -/
theorem IsImageFile_iff_exact_extension (path : String) :
    IsImageFile path = true ↔
      Ext path ∈ [".jpg", ".jpeg", ".png", ".bmp", ".gif", ".tiff", ".webp"] := by
  simp [IsImageFile, supportedExtensions]

/-! ## Collision-safe destination names -/

/-- C3: a path that does not exist is returned unchanged; a path that exists is
replaced by the probe name of the smallest index from 1 to 999 that does not
exist; the probe name of index `i` is the directory of the path joined with
`name_i.ext`, where `name` and `ext` split the base name at its final dot. -/
theorem handleDuplicateFilename_first_free (fs : FS) (path : String) :
    (statOk fs path = false → handleDuplicateFilename fs path = path) ∧
    (∀ i, 1 ≤ i → i ≤ 999 → statOk fs path = true → statOk fs (newPath path i) = false →
      (∀ j, 1 ≤ j → j < i → statOk fs (newPath path j) = true) →
      handleDuplicateFilename fs path = newPath path i) ∧
    (∀ i, newPath path i =
      Join (Dir path) (nameWithoutExt path ++ "_" ++ toString i ++ Ext (Base path))) ∧
    nameWithoutExt path ++ Ext (Base path) = Base path :=
  ⟨handleDuplicateFilename_of_free fs path,
   fun i hlo hhi h hfree htaken => handleDuplicateFilename_of_taken fs path i hlo hhi h hfree htaken,
   fun _ => rfl,
   nameWithoutExt_append_ext path⟩

/-- C3, witness: with nothing in the way `out/dup.jpg` is kept; with
`out/dup.jpg` taken and `out/dup_1.jpg` free the result is `out/dup_1.jpg`. -/
theorem handleDuplicateFilename_first_free_witness :
    handleDuplicateFilename (fun _ => none) "out/dup.jpg" = "out/dup.jpg" ∧
    handleDuplicateFilename occupiedDir "out/dup.jpg" = newPath "out/dup.jpg" 1 ∧
    newPath "out/dup.jpg" 1 = "out/dup_1.jpg" :=
  ⟨(handleDuplicateFilename_first_free (fun _ => none) "out/dup.jpg").1 rfl,
   (handleDuplicateFilename_first_free occupiedDir "out/dup.jpg").2.1 1 (by decide) (by decide)
     (by decide) (by decide) (fun j h1 h2 => absurd h2 (by omega)),
   by decide⟩

theorem crowdedDir_probe_names (i : Nat) :
    newPath "out/dup.jpg" i = "out/dup_" ++ toString i ++ ".jpg" := by
  rw [newPath_out "out/dup.jpg" 'd' ['u', 'p'] ['.', 'j', 'p', 'g'] i (by decide) (by decide)
    (by decide) (by decide) (by decide) (by decide) (by decide)]
  apply String.ext
  simp only [String.data_append]
  rfl

theorem crowdedDir_taken (i : Nat) (hlo : 1 ≤ i) (hhi : i ≤ 999) :
    statOk crowdedDir ("out/dup_" ++ toString i ++ ".jpg") = true := by
  have hmem : ("out/dup_" ++ toString i ++ ".jpg") ∈ crowdedNames := by
    unfold crowdedNames
    refine List.mem_cons_of_mem _ (List.mem_map.mpr ⟨i - 1, List.mem_range.mpr (by omega), ?_⟩)
    have : i - 1 + 1 = i := by omega
    simp only [this]
  simp [statOk, crowdedDir, hmem]

/-- C2, the code at the failing input: in a directory where `out/dup.jpg` and
`out/dup_1.jpg` to `out/dup_999.jpg` all exist, `handleDuplicateFilename`
returns `out/dup.jpg`, a path that exists, and the rename that follows succeeds
and replaces that file. -/
theorem handleDuplicateFilename_exhausted_returns_existing :
    statOk crowdedDir "out/dup.jpg" = true ∧
    (∀ i, 1 ≤ i → i ≤ 999 → statOk crowdedDir ("out/dup_" ++ toString i ++ ".jpg") = true) ∧
    handleDuplicateFilename crowdedDir "out/dup.jpg" = "out/dup.jpg" ∧
    statOk crowdedDir (handleDuplicateFilename crowdedDir "out/dup.jpg") = true := by
  have h0 : statOk crowdedDir "out/dup.jpg" = true := by
    simp [statOk, crowdedDir, crowdedNames]
  have hall : ∀ j, 1 ≤ j → j ≤ 999 → statOk crowdedDir (newPath "out/dup.jpg" j) = true := by
    intro j h1 h2
    rw [crowdedDir_probe_names j]
    exact crowdedDir_taken j h1 h2
  have hres := handleDuplicateFilename_of_exhausted crowdedDir "out/dup.jpg" hall
  refine ⟨h0, crowdedDir_taken, hres, ?_⟩
  rw [hres]
  exact h0

/-! ## Ranking by resolution -/

/-- C5: `SortByResolution` returns no error, and its output is a rearrangement
of the input paths whose dimensions can be read: each such path occurs as often
as in the input, no other path occurs, and the output has as many entries as
the input has readable paths. -/
theorem SortByResolution_keeps_readable (srt : SortLib) (fs : FS) (paths : List String) :
    ∃ out, SortByResolution srt fs paths = .ok out ∧
      out.Perm (paths.filter (readable fs)) ∧
      (∀ p, out.count p = if readable fs p = true then paths.count p else 0) ∧
      out.length = paths.countP (readable fs) ∧
      ((paths.all fun p => !readable fs p) = true → out = []) ∧
      ((paths.all (readable fs)) = true → out.length = paths.length) := by
  refine ⟨ranking srt fs paths, SortByResolution_eq srt fs paths, ranking_perm srt fs paths, ?_, ?_, ?_, ?_⟩
  · intro p
    rw [(ranking_perm srt fs paths).count_eq]
    by_cases hr : readable fs p = true
    · simp [hr, List.count_filter]
    · have hnot : p ∉ paths.filter (readable fs) := by
        intro hmem
        exact hr (List.mem_filter.mp hmem).2
      simp [hr, List.count_eq_zero_of_not_mem hnot]
  · rw [(ranking_perm srt fs paths).length_eq, List.countP_eq_length_filter]
  · intro hall
    have hnil : paths.filter (readable fs) = [] := by
      rw [List.filter_eq_nil_iff]
      intro p hp
      have := List.all_eq_true.mp hall p hp
      simpa using this
    have hp := ranking_perm srt fs paths
    rw [hnil] at hp
    exact List.Perm.eq_nil hp
  · intro hall
    rw [(ranking_perm srt fs paths).length_eq]
    congr 1
    rw [List.filter_eq_self]
    intro p hp
    exact List.all_eq_true.mp hall p hp

/-- C5, witness: the two readable headers of `hugeHeaders` are both listed, and
the ranking of a single path that holds no file is empty. -/
theorem SortByResolution_keeps_readable_witness :
    (∃ out, SortByResolution insertionLib hugeHeaders ["s.png", "l.png"] = .ok out ∧ out.length = 2) ∧
    (∃ out, SortByResolution insertionLib hugeHeaders ["missing.png"] = .ok out ∧ out = []) := by
  constructor
  · obtain ⟨out, h1, _, _, _, _, h6⟩ := SortByResolution_keeps_readable insertionLib hugeHeaders ["s.png", "l.png"]
    exact ⟨out, h1, h6 (by decide)⟩
  · obtain ⟨out, h1, _, _, _, h5, _⟩ := SortByResolution_keeps_readable insertionLib hugeHeaders ["missing.png"]
    exact ⟨out, h1, h5 (by decide)⟩

set_option maxRecDepth 100000 in
/-- C4, counterexample: `s.png` declares 134217729 x 134217727 pixels, one pixel
less than the 134217728 x 134217728 of `l.png`; both areas convert to the same
`float64`, so the slice is left as given and `s.png` is ranked before `l.png`. -/
theorem SortByResolution_area_order_counterexample :
    SortByResolution insertionLib hugeHeaders ["s.png", "l.png"] = .ok ["s.png", "l.png"] ∧
    areaAt hugeHeaders "s.png" < areaAt hugeHeaders "l.png" := by
  decide

/-- C4, amended: the output of `SortByResolution` is ordered by the `float64`
value `float64(width*height) / 1_000_000` descending: a path never precedes one
with a greater megapixel value.  Hence, when the products `width*height` fit
the 64-bit `int`, a path precedes a path of greater exact area only if the two
areas have the same `float64` megapixel value. -/
theorem SortByResolution_descending_megapixels (srt : SortLib) (fs : FS) (paths : List String) :
    ∃ out, SortByResolution srt fs paths = .ok out ∧
      out.Pairwise (fun p q => megapixelsAt fs q ≤ megapixelsAt fs p) ∧
      out.Pairwise (fun p q => fitsInt (areaAt fs p) = true → fitsInt (areaAt fs q) = true →
        areaAt fs p < areaAt fs q → megapixelsAt fs p = megapixelsAt fs q) := by
  refine ⟨ranking srt fs paths, SortByResolution_eq srt fs paths, ranking_descending srt fs paths, ?_⟩
  refine List.Pairwise.imp ?_ (ranking_descending srt fs paths)
  intro p q hdesc hp hq hlt
  exact le_antisymm (megapixelsAt_mono fs p q hp hq (le_of_lt hlt)) hdesc

set_option maxRecDepth 100000 in
/-- C4, witness: `s.png` is ranked before `l.png`, whose area is greater by one
pixel, and the two have the same megapixel value. -/
theorem SortByResolution_descending_megapixels_witness :
    megapixelsAt hugeHeaders "s.png" = megapixelsAt hugeHeaders "l.png" := by
  obtain ⟨out, hout, _, hpw⟩ := SortByResolution_descending_megapixels insertionLib hugeHeaders
    ["s.png", "l.png"]
  have hrank : SortByResolution insertionLib hugeHeaders ["s.png", "l.png"] = .ok ["s.png", "l.png"] := by
    decide
  rw [hrank] at hout
  simp only [Except.ok.injEq] at hout
  rw [← hout] at hpw
  rw [List.pairwise_cons] at hpw
  exact hpw.1 "l.png" (by simp) (by decide) (by decide) (by decide)

/-! ## Signatures -/

/-- C8, counterexample: with thumbnail size 0 the thumbnail is the empty picture,
`png.Encode` fails on it, and `GenerateSignature` still returns a signature, the
digest of the bytes of the JPEG fallback. -/
theorem GenerateSignature_encode_failure_counterexample :
    (∃ img, LoadImage onePicture "in/a.jpg" = .ok img ∧
      (toyLib.pngEncode (CreateThumbnail toyLib img 0)).2 = false) ∧
    GenerateSignature toyLib onePicture "in/a.jpg" 0 = .ok "md5-of-[2]" := by
  refine ⟨⟨_, rfl, ?_⟩, ?_⟩ <;> decide

/-- C8, amended: `GenerateSignature` returns an error exactly when the file
cannot be opened or decoded; otherwise it returns the digest of the buffer of
`ImageToBytes`, which holds the PNG encoding of the thumbnail if `png.Encode`
succeeded and else what `png.Encode` wrote followed by what `jpeg.Encode`
wrote. -/
theorem GenerateSignature_error_iff_load_error (lib : ImageLib) (fs : FS) (path : String)
    (size : Int) :
    ((∃ e, GenerateSignature lib fs path size = .error e) ↔ ∃ e, LoadImage fs path = .error e) ∧
    (∀ img, LoadImage fs path = .ok img →
      GenerateSignature lib fs path size = .ok (lib.md5Hex
        (if (lib.pngEncode (lib.thumbnail img size size)).2 = true
         then (lib.pngEncode (lib.thumbnail img size size)).1
         else (lib.pngEncode (lib.thumbnail img size size)).1
           ++ (lib.jpegEncode (lib.thumbnail img size size)).1))) := by
  constructor
  · cases h : LoadImage fs path with
    | error e => simp [GenerateSignature, h]
    | ok img => simp [GenerateSignature, h]
  · intro img h
    simp only [GenerateSignature, h, CreateThumbnail, ImageToBytes]

/-- C8, witness: the picture `in/a.jpg` at thumbnail size 200 gets the digest of
its PNG encoding. -/
theorem GenerateSignature_error_iff_load_error_witness :
    GenerateSignature toyLib onePicture "in/a.jpg" 200 = .ok "md5-of-[1, 1, 2, 3, 4]" := by
  have h := (GenerateSignature_error_iff_load_error toyLib onePicture "in/a.jpg" 200).2
    { width := 2, height := 2, pixels := [1, 2, 3, 4] } (by decide)
  rw [h]
  decide

/-! ## The scanning phase -/

/-- C7: the signature map built by the walk equals the map built from the walk
with the entries whose signature fails removed, the walk returning an error in
the one case exactly when it does in the other; and every path in a group of
the map has a signature, the key of the group. -/
theorem scan_ignores_signature_failures (lib : ImageLib) (cfg : Config) (fs : FS)
    (walk : List WalkEntry) :
    (scan lib cfg fs (zeroStats, []) walk).map Prod.snd
      = (scan lib cfg fs (zeroStats, [])
          (walk.filter fun e => !signatureFails lib cfg fs e)).map Prod.snd ∧
    (∀ stats sigs, scan lib cfg fs (zeroStats, []) walk = .ok (stats, sigs) →
      ∀ sig files, (sig, files) ∈ sigs → ∀ p ∈ files,
        GenerateSignature lib fs p cfg.ThumbnailSize = .ok sig) := by
  refine ⟨scan_sigs_filter lib cfg fs walk zeroStats zeroStats [], ?_⟩
  intro stats sigs h
  have := scan_wellSigned lib cfg fs walk (zeroStats, []) (stats, sigs) h
    (by intro sig files hmem; simp at hmem)
  exact this

/-- C7, witness: in the walk over two copies of a picture and a corrupt file the
map has the one group of the two copies, and `in/b.jpg` has the signature of
its group. -/
theorem scan_ignores_signature_failures_witness :
    (scan toyLib outsideCfg twinsAndCorrupt (zeroStats, []) twinsWalk).map Prod.snd
      = .ok [("md5-of-[1, 1, 2, 3, 4]", ["in/a.jpg", "in/b.jpg"])] ∧
    GenerateSignature toyLib twinsAndCorrupt "in/b.jpg" 200 = .ok "md5-of-[1, 1, 2, 3, 4]" :=
  ⟨by decide,
   (scan_ignores_signature_failures toyLib outsideCfg twinsAndCorrupt twinsWalk).2
     ⟨3, 3, 0, 0⟩ [("md5-of-[1, 1, 2, 3, 4]", ["in/a.jpg", "in/b.jpg"])] (by decide)
     "md5-of-[1, 1, 2, 3, 4]" ["in/a.jpg", "in/b.jpg"] (by decide) "in/b.jpg" (by decide)⟩

/-! ## Lemmas on the moving phase -/

theorem handleDuplicateFilename_mem_candidates (cfg : Config) (fs : FS) (src : String) :
    handleDuplicateFilename fs (Join cfg.OutputDir (Base src)) ∈ destCandidates cfg src := by
  unfold handleDuplicateFilename destCandidates
  by_cases hs : statOk fs (Join cfg.OutputDir (Base src)) = true
  · simp only [hs, if_true]
    cases hp : probe fs (Join cfg.OutputDir (Base src)) 999 1 with
    | none => exact List.mem_cons_self _ _
    | some q =>
      obtain ⟨i, h1, h2, h3⟩ := probe_is_candidate fs _ 999 1 q hp
      refine List.mem_cons_of_mem _ (List.mem_map.mpr ⟨i - 1, List.mem_range.mpr (by omega), ?_⟩)
      have : i - 1 + 1 = i := by omega
      simp only [this, h3]
  · simp only [hs]
    exact List.mem_cons_self _ _

theorem rename_ok (fs fs1 : FS) (src dst : String) (h : rename fs src dst = .ok fs1) :
    ∃ f, fs src = some f ∧
      ∀ p, fs1 p = if p = dst then some f else if p = src then none else fs p := by
  unfold rename at h
  cases hf : fs src with
  | none => rw [hf] at h; cases h
  | some f =>
    rw [hf] at h
    simp only [Except.ok.injEq] at h
    exact ⟨f, rfl, fun p => by rw [← h]⟩

theorem probe_none_taken (fs : FS) (path : String) (remaining start : Nat)
    (h : probe fs path remaining start = none) :
    ∀ j, start ≤ j → j < start + remaining → statOk fs (newPath path j) = true := by
  induction remaining generalizing start with
  | zero => intro j h1 h2; omega
  | succ n ih =>
    simp only [probe] at h
    by_cases hs : statOk fs (newPath path start) = true
    · rw [hs] at h
      simp only [if_true] at h
      intro j h1 h2
      by_cases hj : j = start
      · rw [hj]; exact hs
      · exact ih (start + 1) h j (by omega) (by omega)
    · have hf : statOk fs (newPath path start) = false := by simpa using hs
      rw [hf] at h
      simp at h

/-- The destination chosen for a file does not exist, unless the destination
path and its 999 probe names all exist. -/
theorem handleDuplicateFilename_free_or_exhausted (cfg : Config) (fs : FS) (src : String) :
    statOk fs (handleDuplicateFilename fs (Join cfg.OutputDir (Base src))) = false ∨
    ∀ q ∈ destCandidates cfg src, statOk fs q = true := by
  unfold handleDuplicateFilename
  by_cases hs : statOk fs (Join cfg.OutputDir (Base src)) = true
  · simp only [hs, if_true]
    cases hp : probe fs (Join cfg.OutputDir (Base src)) 999 1 with
    | some q => exact Or.inl (probe_is_free fs _ 999 1 q hp)
    | none =>
      right
      intro q hq
      unfold destCandidates at hq
      rcases List.mem_cons.mp hq with rfl | hq2
      · exact hs
      · obtain ⟨k, hk, hkq⟩ := List.mem_map.mp hq2
        rw [← hkq]
        exact probe_none_taken fs _ 999 1 hp (k + 1) (by omega)
          (by have := List.mem_range.mp hk; omega)
  · have hf : statOk fs (Join cfg.OutputDir (Base src)) = false := by simpa using hs
    simp only [hf]
    exact Or.inl hf

theorem moveFiles_keeps (cfg : Config) (L : List String) (st st' : Moved)
    (h : moveFiles cfg st L = .ok st') :
    ∀ q, q ∉ L → statOk st.fs q = true → statOk st'.fs q = true := by
  induction L generalizing st with
  | nil =>
    simp only [moveFiles, Except.ok.injEq] at h
    subst h
    exact fun _ _ hq => hq
  | cons src rest ih =>
    simp only [moveFiles] at h
    cases hr : rename st.fs src (handleDuplicateFilename st.fs (Join cfg.OutputDir (Base src))) with
    | error e => rw [hr] at h; cases h
    | ok fs1 =>
      rw [hr] at h
      simp only at h
      obtain ⟨f, _, hfs1⟩ := rename_ok _ _ _ _ hr
      intro q hq hex
      refine ih _ h q (fun hm => hq (List.mem_cons_of_mem _ hm)) ?_
      simp only [statOk, hfs1 q]
      have hne : q ≠ src := fun heq => hq (by rw [heq]; exact List.mem_cons_self _ _)
      by_cases hd : q = handleDuplicateFilename st.fs (Join cfg.OutputDir (Base src))
      · simp [hd]
      · simpa [hd, hne] using hex

theorem count_dst_append (l1 l2 : List String) (d : String)
    (h : (l1 ++ l2).count d = 1) (hm : d ∈ l1) : l1.count d = 1 ∧ d ∉ l2 := by
  rw [List.count_append] at h
  have h1 : 0 < l1.count d := List.count_pos_iff.mpr hm
  refine ⟨by omega, ?_⟩
  intro h2
  have := List.count_pos_iff.mpr h2
  omega

theorem count_dst_append_right (l1 l2 : List String) (d : String)
    (h : (l1 ++ l2).count d = 1) (hm : d ∈ l2) : l2.count d = 1 ∧ d ∉ l1 := by
  rw [List.count_append] at h
  have h1 : 0 < l2.count d := List.count_pos_iff.mpr hm
  refine ⟨by omega, ?_⟩
  intro h2
  have := List.count_pos_iff.mpr h2
  omega

theorem not_mem_dsts (cfg : Config) (S : List String) (newLog : List (String × String))
    (hsrc : newLog.map Prod.fst = S.reverse)
    (hcand : ∀ sd ∈ newLog, sd.2 ∈ destCandidates cfg sd.1) (p : String)
    (hp : ∀ q ∈ S, p ∉ destCandidates cfg q) : p ∉ newLog.map Prod.snd := by
  intro hmem
  obtain ⟨sd, hsd, hsd2⟩ := List.mem_map.mp hmem
  have hq : sd.1 ∈ S := by
    have : sd.1 ∈ newLog.map Prod.fst := List.mem_map.mpr ⟨sd, hsd, rfl⟩
    rw [hsrc] at this
    exact List.mem_reverse.mp this
  apply hp sd.1 hq
  rw [← hsd2]
  exact hcand sd hsd

theorem src_of_log (S : List String) (newLog : List (String × String))
    (hsrc : newLog.map Prod.fst = S.reverse) (sd : String × String) (hsd : sd ∈ newLog) :
    sd.1 ∈ S := by
  have : sd.1 ∈ newLog.map Prod.fst := List.mem_map.mpr ⟨sd, hsd, rfl⟩
  rw [hsrc] at this
  exact List.mem_reverse.mp this

theorem moveFiles_spec (cfg : Config) (L : List String) (st st' : Moved)
    (h : moveFiles cfg st L = .ok st') (hnd : L.Nodup)
    (hdis : ∀ p ∈ L, ∀ q ∈ L, p ∉ destCandidates cfg q) :
    st'.moved = st.moved + L.length ∧
    (∀ p ∈ L, st'.fs p = none) ∧
    (∃ newLog, st'.log = newLog ++ st.log ∧ newLog.map Prod.fst = L.reverse ∧
      (∀ sd ∈ newLog, sd.2 ∈ destCandidates cfg sd.1) ∧
      (∀ p, p ∉ L → p ∉ newLog.map Prod.snd → st'.fs p = st.fs p) ∧
      (∀ sd ∈ newLog, (newLog.map Prod.snd).count sd.2 = 1 → st'.fs sd.2 = st.fs sd.1) ∧
      (∀ sd ∈ newLog, statOk st'.fs sd.2 = true) ∧
      ((∀ p ∈ L, ∃ q ∈ destCandidates cfg p, statOk st'.fs q = false) →
        (newLog.map Prod.snd).Nodup ∧ ∀ sd ∈ newLog, statOk st.fs sd.2 = false)) := by
  induction L generalizing st with
  | nil =>
    simp only [moveFiles, Except.ok.injEq] at h
    subst h
    exact ⟨by simp, by simp, [], by simp, by simp, by simp, fun _ _ _ => rfl, by simp, by simp,
      fun _ => ⟨by simp, by simp⟩⟩
  | cons src rest ih =>
    have hkeepAll := moveFiles_keeps cfg (src :: rest) st st' h
    have hexh := handleDuplicateFilename_free_or_exhausted cfg st.fs src
    simp only [moveFiles] at h
    cases hr : rename st.fs src (handleDuplicateFilename st.fs (Join cfg.OutputDir (Base src))) with
    | error e => rw [hr] at h; cases h
    | ok fs1 =>
      rw [hr] at h
      simp only at h
      obtain ⟨f, hf, hfs1⟩ := rename_ok _ _ _ _ hr
      have hdst := handleDuplicateFilename_mem_candidates cfg st.fs src
      generalize hd0 : handleDuplicateFilename st.fs (Join cfg.OutputDir (Base src)) = dst0
        at h hr hfs1 hdst hexh
      rw [List.nodup_cons] at hnd
      have hdisR : ∀ p ∈ rest, ∀ q ∈ rest, p ∉ destCandidates cfg q :=
        fun p hp q hq => hdis p (List.mem_cons_of_mem _ hp) q (List.mem_cons_of_mem _ hq)
      have hkeepR := moveFiles_keeps cfg rest _ st' h
      obtain ⟨ih1, ih2, restLog, ih4, ih5, ih6, ih7, ih8, ih9, ih10⟩ := ih _ h hnd.2 hdisR
      simp only at ih1 ih4 ih7 ih8 ih10 hkeepR
      have hne_src : ∀ p ∈ src :: rest, p ≠ dst0 := by
        intro p hp heq
        apply hdis p hp src (List.mem_cons_self _ _)
        rw [heq]
        exact hdst
      have hsrc_dsts : ∀ p ∈ src :: rest, p ∉ restLog.map Prod.snd := by
        intro p hp
        exact not_mem_dsts cfg rest restLog ih5 ih6 p
          (fun q hq => hdis p hp q (List.mem_cons_of_mem _ hq))
      have hsrc : fs1 src = none := by
        rw [hfs1 src, if_neg (hne_src src (List.mem_cons_self _ _)), if_pos rfl]
      have hd1 : dst0 ∉ rest := fun hm => hne_src dst0 (List.mem_cons_of_mem _ hm) rfl
      have hfs1dst : statOk fs1 dst0 = true := by simp [statOk, hfs1 dst0]
      refine ⟨?_, ?_, restLog ++ [(src, dst0)], ?_, ?_, ?_, ?_, ?_, ?_, ?_⟩
      · rw [ih1]
        simp only [List.length_cons]
        omega
      · intro p hp
        rcases List.mem_cons.mp hp with rfl | hp2
        · rw [ih7 p hnd.1 (hsrc_dsts p (List.mem_cons_self _ _))]
          exact hsrc
        · exact ih2 p hp2
      · rw [ih4]; simp
      · simp [ih5]
      · intro sd hsd
        rcases List.mem_append.mp hsd with hsd2 | hsd2
        · exact ih6 sd hsd2
        · simp only [List.mem_singleton] at hsd2
          subst hsd2
          exact hdst
      · intro p hp hpl
        have hp1 : p ≠ src := fun heq => hp (by rw [heq]; exact List.mem_cons_self _ _)
        have hp2 : p ∉ rest := fun hm => hp (List.mem_cons_of_mem _ hm)
        have hp3 : p ≠ dst0 := by
          intro heq
          apply hpl
          simp [heq]
        have hp4 : p ∉ restLog.map Prod.snd := by
          intro hm
          apply hpl
          simp only [List.map_append, List.mem_append]
          exact Or.inl hm
        rw [ih7 p hp2 hp4, hfs1 p, if_neg hp3, if_neg hp1]
      · intro sd hsd hcount
        simp only [List.map_append, List.map_cons, List.map_nil] at hcount
        rcases List.mem_append.mp hsd with hsd2 | hsd2
        · obtain ⟨hc, hnot⟩ := count_dst_append _ _ sd.2 hcount
            (List.mem_map.mpr ⟨sd, hsd2, rfl⟩)
          have hs1 : sd.1 ∈ rest := src_of_log rest restLog ih5 sd hsd2
          rw [ih8 sd hsd2 hc, hfs1 sd.1,
            if_neg (hne_src sd.1 (List.mem_cons_of_mem _ hs1)),
            if_neg (fun heq => hnd.1 (by rw [← heq]; exact hs1))]
        · simp only [List.mem_singleton] at hsd2
          subst hsd2
          simp only
          obtain ⟨_, hnot⟩ := count_dst_append_right _ _ dst0 hcount (by simp)
          rw [ih7 dst0 hd1 hnot, hfs1 dst0, if_pos rfl, hf]
      · intro sd hsd
        rcases List.mem_append.mp hsd with hsd2 | hsd2
        · exact ih9 sd hsd2
        · simp only [List.mem_singleton] at hsd2
          subst hsd2
          exact hkeepR dst0 hd1 hfs1dst
      · intro hfree
        obtain ⟨hndL, hfreeL⟩ := ih10
          (fun p hp => hfree p (List.mem_cons_of_mem _ hp))
        have hcandNotSrc : ∀ sd ∈ restLog, sd.2 ≠ src := by
          intro sd hsd heq
          apply hsrc_dsts src (List.mem_cons_self _ _)
          exact List.mem_map.mpr ⟨sd, hsd, heq⟩
        have hdst0free : statOk st.fs dst0 = false := by
          rcases hexh with hfr | hall
          · exact hfr
          · exfalso
            obtain ⟨q, hq, hqfree⟩ := hfree src (List.mem_cons_self _ _)
            have hqL : q ∉ src :: rest := fun hm => hdis q hm src (List.mem_cons_self _ _) hq
            have := hkeepAll q hqL (hall q hq)
            rw [hqfree] at this
            cases this
        have hnotin : dst0 ∉ restLog.map Prod.snd := by
          intro hm
          obtain ⟨sd, hsd, hsd2⟩ := List.mem_map.mp hm
          have := hfreeL sd hsd
          rw [hsd2, hfs1dst] at this
          cases this
        refine ⟨?_, ?_⟩
        · simp only [List.map_append, List.map_cons, List.map_nil]
          rw [List.nodup_append]
          refine ⟨hndL, List.nodup_singleton _, ?_⟩
          intro d hd hd2
          simp only [List.mem_singleton] at hd2
          subst hd2
          exact hnotin hd
        · intro sd hsd
          rcases List.mem_append.mp hsd with hsd2 | hsd2
          · have hfr := hfreeL sd hsd2
            have hne0 : sd.2 ≠ dst0 := fun heq => hnotin (List.mem_map.mpr ⟨sd, hsd2, heq⟩)
            simp only [statOk, hfs1 sd.2, if_neg hne0, if_neg (hcandNotSrc sd hsd2)] at hfr
            exact hfr
          · simp only [List.mem_singleton] at hsd2
            subst hsd2
            exact hdst0free

theorem GetImageDimensions_congr (fs fs' : FS) (p : String) (h : fs p = fs' p) :
    GetImageDimensions fs p = GetImageDimensions fs' p := by
  simp only [GetImageDimensions, h]

theorem collectInfo_congr (fs fs' : FS) (files : List String)
    (h : ∀ p ∈ files, fs p = fs' p) : collectInfo fs files = collectInfo fs' files := by
  induction files with
  | nil => rfl
  | cons p ps ih =>
    simp only [collectInfo]
    rw [GetImageDimensions_congr fs fs' p (h p (List.mem_cons_self _ _)),
      ih (fun q hq => h q (List.mem_cons_of_mem _ hq))]

theorem ranking_congr (srt : SortLib) (fs fs' : FS) (files : List String)
    (h : ∀ p ∈ files, fs p = fs' p) : ranking srt fs files = ranking srt fs' files := by
  simp only [ranking, collectInfo_congr fs fs' files h]

theorem toMove_congr (srt : SortLib) (fs fs' : FS) (files : List String)
    (h : ∀ p ∈ files, fs p = fs' p) : toMove srt fs files = toMove srt fs' files := by
  simp only [toMove, ranking_congr srt fs fs' files h]

theorem ranking_subset (srt : SortLib) (fs : FS) (files : List String) (p : String)
    (h : p ∈ ranking srt fs files) : p ∈ files ∧ readable fs p = true := by
  have := (ranking_perm srt fs files).mem_iff.mp h
  exact List.mem_filter.mp this

theorem ranking_nodup (srt : SortLib) (fs : FS) (files : List String) (h : files.Nodup) :
    (ranking srt fs files).Nodup :=
  (ranking_perm srt fs files).nodup_iff.mpr (h.filter _)

theorem toMove_subset (srt : SortLib) (fs : FS) (files : List String) (p : String)
    (h : p ∈ toMove srt fs files) : p ∈ files := by
  unfold toMove at h
  split at h
  · simp at h
  · exact (ranking_subset srt fs files p (List.mem_of_mem_drop h)).1

theorem toMove_nodup (srt : SortLib) (fs : FS) (files : List String) (h : files.Nodup) :
    (toMove srt fs files).Nodup := by
  unfold toMove
  split
  · exact List.nodup_nil
  · exact (ranking_nodup srt fs files h).sublist (List.drop_sublist 1 _)

theorem members_cons (sig : String) (files : List String) (rest : List (String × List String)) :
    members ((sig, files) :: rest) = files ++ members rest := by
  simp [members]

theorem moveSet_cons (srt : SortLib) (fs : FS) (sig : String) (files : List String)
    (rest : List (String × List String)) :
    moveSet srt fs ((sig, files) :: rest) = toMove srt fs files ++ moveSet srt fs rest := by
  simp [moveSet]

theorem moveSet_subset (srt : SortLib) (fs : FS) (G : List (String × List String)) (p : String)
    (h : p ∈ moveSet srt fs G) : p ∈ members G := by
  simp only [moveSet, members, List.mem_flatMap] at h ⊢
  obtain ⟨g, hg, hp⟩ := h
  exact ⟨g, hg, toMove_subset srt fs g.2 p hp⟩

theorem moveSet_congr (srt : SortLib) (fs fs' : FS) (G : List (String × List String))
    (h : ∀ p ∈ members G, fs p = fs' p) : moveSet srt fs G = moveSet srt fs' G := by
  induction G with
  | nil => rfl
  | cons g rest ih =>
    obtain ⟨sig, files⟩ := g
    rw [members_cons] at h
    rw [moveSet_cons srt, moveSet_cons srt,
      toMove_congr srt fs fs' files (fun p hp => h p (List.mem_append_left _ hp)),
      ih (fun p hp => h p (List.mem_append_right _ hp))]

theorem processDuplicates_cons (srt : SortLib) (cfg : Config) (st : Moved) (sig : String) (files : List String)
    (rest : List (String × List String)) :
    processDuplicates srt cfg st ((sig, files) :: rest) =
      match moveFiles cfg st (toMove srt st.fs files) with
      | .error e => .error e
      | .ok st' => processDuplicates srt cfg st' rest := by
  simp only [processDuplicates, toMove]
  split
  · simp [moveFiles]
  · simp only [SortByResolution_eq srt]

theorem processDuplicates_keeps (srt : SortLib) (cfg : Config)
    (G : List (String × List String)) (st st1 : Moved)
    (h : processDuplicates srt cfg st G = .ok st1) :
    ∀ q, q ∉ members G → statOk st.fs q = true → statOk st1.fs q = true := by
  induction G generalizing st with
  | nil =>
    simp only [processDuplicates, Except.ok.injEq] at h
    subst h
    exact fun _ _ hq => hq
  | cons g rest ih =>
    obtain ⟨sig, files⟩ := g
    rw [processDuplicates_cons] at h
    rw [members_cons]
    cases hm : moveFiles cfg st (toMove srt st.fs files) with
    | error e => rw [hm] at h; cases h
    | ok st' =>
      rw [hm] at h
      simp only at h
      intro q hq hex
      refine ih st' h q (fun hR => hq (List.mem_append_right _ hR)) ?_
      exact moveFiles_keeps cfg _ st st' hm q
        (fun hL => hq (List.mem_append_left _ (toMove_subset srt st.fs files q hL))) hex

theorem processDuplicates_spec (srt : SortLib) (cfg : Config) (G : List (String × List String))
    (st st1 : Moved) (h : processDuplicates srt cfg st G = .ok st1) (hnd : (members G).Nodup)
    (hdis : ∀ p ∈ members G, ∀ q ∈ members G, p ∉ destCandidates cfg q) :
    st1.moved = st.moved + (moveSet srt st.fs G).length ∧
    (∀ p ∈ members G, st1.fs p = if p ∈ moveSet srt st.fs G then none else st.fs p) ∧
    (∃ newLog, st1.log = newLog ++ st.log ∧
      newLog.map Prod.fst = (moveSet srt st.fs G).reverse ∧
      (∀ sd ∈ newLog, sd.2 ∈ destCandidates cfg sd.1) ∧
      (∀ p, p ∉ members G → p ∉ newLog.map Prod.snd → st1.fs p = st.fs p) ∧
      (∀ sd ∈ newLog, (newLog.map Prod.snd).count sd.2 = 1 → st1.fs sd.2 = st.fs sd.1) ∧
      (∀ sd ∈ newLog, statOk st1.fs sd.2 = true) ∧
      ((∀ p ∈ moveSet srt st.fs G, ∃ q ∈ destCandidates cfg p, statOk st1.fs q = false) →
        (newLog.map Prod.snd).Nodup ∧ ∀ sd ∈ newLog, statOk st.fs sd.2 = false)) := by
  induction G generalizing st with
  | nil =>
    simp only [processDuplicates, Except.ok.injEq] at h
    subst h
    exact ⟨by simp [moveSet], by simp [members], [], by simp, by simp [moveSet], by simp,
      fun _ _ _ => rfl, by simp, by simp, fun _ => ⟨by simp, by simp⟩⟩
  | cons g rest ih =>
    obtain ⟨sig, files⟩ := g
    rw [processDuplicates_cons] at h
    rw [members_cons] at hnd hdis
    rw [members_cons, moveSet_cons]
    obtain ⟨hndF, hndR, hdisj⟩ := List.nodup_append.mp hnd
    cases hm : moveFiles cfg st (toMove srt st.fs files) with
    | error e => rw [hm] at h; cases h
    | ok st' =>
      rw [hm] at h
      simp only at h
      have hLsub : ∀ p ∈ toMove srt st.fs files, p ∈ files := toMove_subset srt st.fs files
      have hkeepG := moveFiles_keeps cfg _ st st' hm
      have hkeepR := processDuplicates_keeps srt cfg rest st' st1 h
      obtain ⟨m1, m2, gLog, m4, m5, m6, m7, m8, m9, m10⟩ := moveFiles_spec cfg _ st st' hm
        (toMove_nodup srt st.fs files hndF)
        (fun p hp q hq => hdis p (List.mem_append_left _ (hLsub p hp)) q
          (List.mem_append_left _ (hLsub q hq)))
      have hgdst : ∀ p ∈ files ++ members rest, p ∉ gLog.map Prod.snd := fun p hp =>
        not_mem_dsts cfg _ gLog m5 m6 p
          (fun q hq => hdis p hp q (List.mem_append_left _ (hLsub q hq)))
      have hnotL : ∀ p ∈ members rest, p ∉ toMove srt st.fs files :=
        fun p hp hL => hdisj (hLsub p hL) hp
      have hagree : ∀ p ∈ members rest, st'.fs p = st.fs p := fun p hp =>
        m7 p (hnotL p hp) (hgdst p (List.mem_append_right _ hp))
      have hms : moveSet srt st'.fs rest = moveSet srt st.fs rest :=
        moveSet_congr srt _ _ rest hagree
      obtain ⟨i1, i2, rLog, i4, i5, i6, i7, i8, i9, i10⟩ := ih st' h hndR
        (fun p hp q hq => hdis p (List.mem_append_right _ hp) q (List.mem_append_right _ hq))
      rw [hms] at i1 i2 i5 i10
      have hrdst : ∀ p ∈ files ++ members rest, p ∉ rLog.map Prod.snd := fun p hp =>
        not_mem_dsts cfg _ rLog i5 i6 p
          (fun q hq => hdis p hp q (List.mem_append_right _ (moveSet_subset srt _ _ q hq)))
      refine ⟨?_, ?_, rLog ++ gLog, ?_, ?_, ?_, ?_, ?_, ?_, ?_⟩
      · rw [i1, m1, List.length_append]
        omega
      · intro p hp
        rcases List.mem_append.mp hp with hpF | hpR
        · have hpR : p ∉ members rest := fun hR => hdisj hpF hR
          have hpM : p ∉ moveSet srt st.fs rest := fun hM => hpR (moveSet_subset srt _ _ p hM)
          rw [i7 p hpR (hrdst p hp)]
          by_cases hL : p ∈ toMove srt st.fs files
          · rw [m2 p hL]
            simp [hL]
          · rw [m7 p hL (hgdst p hp)]
            simp [hL, hpM]
        · rw [i2 p hpR, hagree p hpR]
          simp [hnotL p hpR]
      · rw [i4, m4]; simp
      · simp [i5, m5]
      · intro sd hsd
        rcases List.mem_append.mp hsd with hsd2 | hsd2
        · exact i6 sd hsd2
        · exact m6 sd hsd2
      · intro p hp hpl
        have hpF : p ∉ files := fun hF => hp (List.mem_append_left _ hF)
        have hpR : p ∉ members rest := fun hR => hp (List.mem_append_right _ hR)
        have hp1 : p ∉ rLog.map Prod.snd := fun hm1 => hpl (by
          simp only [List.map_append, List.mem_append]; exact Or.inl hm1)
        have hp2 : p ∉ gLog.map Prod.snd := fun hm2 => hpl (by
          simp only [List.map_append, List.mem_append]; exact Or.inr hm2)
        rw [i7 p hpR hp1]
        exact m7 p (fun hL => hpF (hLsub p hL)) hp2
      · intro sd hsd hcount
        simp only [List.map_append] at hcount
        rcases List.mem_append.mp hsd with hsd2 | hsd2
        · obtain ⟨hc, _⟩ := count_dst_append _ _ sd.2 hcount (List.mem_map.mpr ⟨sd, hsd2, rfl⟩)
          have hs1 : sd.1 ∈ moveSet srt st.fs rest := src_of_log _ rLog i5 sd hsd2
          rw [i8 sd hsd2 hc]
          exact hagree sd.1 (moveSet_subset srt _ _ sd.1 hs1)
        · obtain ⟨hc, hnot⟩ := count_dst_append_right _ _ sd.2 hcount
            (List.mem_map.mpr ⟨sd, hsd2, rfl⟩)
          have hs1 : sd.1 ∈ files := hLsub sd.1 (src_of_log _ gLog m5 sd hsd2)
          have hnotR : sd.2 ∉ members rest := by
            intro hR
            exact hdis sd.2 (List.mem_append_right _ hR) sd.1 (List.mem_append_left _ hs1)
              (m6 sd hsd2)
          rw [i7 sd.2 hnotR hnot]
          exact m8 sd hsd2 hc
      · intro sd hsd
        rcases List.mem_append.mp hsd with hsd2 | hsd2
        · exact i9 sd hsd2
        · refine hkeepR sd.2 ?_ (m9 sd hsd2)
          intro hR
          exact hgdst sd.2 (List.mem_append_right _ hR) (List.mem_map.mpr ⟨sd, hsd2, rfl⟩)
      · intro hfree
        obtain ⟨hndR2, hfreeR⟩ := i10 (fun p hp => hfree p (List.mem_append_right _ hp))
        have hfreeG : ∀ p ∈ toMove srt st.fs files,
            ∃ q ∈ destCandidates cfg p, statOk st'.fs q = false := by
          intro p hp
          obtain ⟨q, hq, hqf⟩ := hfree p (List.mem_append_left _ hp)
          refine ⟨q, hq, ?_⟩
          cases hst : statOk st'.fs q with
          | false => rfl
          | true =>
            exfalso
            have hqR : q ∉ members rest := fun hR =>
              hdis q (List.mem_append_right _ hR) p (List.mem_append_left _ (hLsub p hp)) hq
            have := hkeepR q hqR hst
            rw [hqf] at this
            cases this
        obtain ⟨hndG, hfreeGst⟩ := m10 hfreeG
        refine ⟨?_, ?_⟩
        · simp only [List.map_append]
          rw [List.nodup_append]
          refine ⟨hndR2, hndG, ?_⟩
          intro d hd1 hd2
          obtain ⟨sd1, hsd1, he1⟩ := List.mem_map.mp hd1
          obtain ⟨sd2, hsd2, he2⟩ := List.mem_map.mp hd2
          have h1 := hfreeR sd1 hsd1
          have h2 := m9 sd2 hsd2
          rw [he1] at h1
          rw [he2, h1] at h2
          cases h2
        · intro sd hsd
          rcases List.mem_append.mp hsd with hsd2 | hsd2
          · cases hst : statOk st.fs sd.2 with
            | false => rfl
            | true =>
              exfalso
              have hnL : sd.2 ∉ toMove srt st.fs files := fun hL =>
                hrdst sd.2 (List.mem_append_left _ (hLsub sd.2 hL))
                  (List.mem_map.mpr ⟨sd, hsd2, rfl⟩)
              have := hkeepG sd.2 hnL hst
              rw [hfreeR sd hsd2] at this
              cases this
          · exact hfreeGst sd hsd2

/-! ## The signature map as a fold over the walk -/

theorem visit_sigs (lib : ImageLib) (cfg : Config) (fs : FS) (st st' : Stats × SigMap)
    (e : WalkEntry) (h : visit lib cfg fs st e = .ok st') :
    e.err = false ∧ st'.2 = nextSigs lib cfg fs st.2 e := by
  obtain ⟨stats, sigs⟩ := st
  simp only [visit] at h
  simp only [nextSigs, signedAs]
  split at h
  · cases h
  · rename_i herr
    refine ⟨by simpa using herr, ?_⟩
    split at h
    · rename_i hdir
      cases h
      simp [hdir]
    · rename_i hdir
      split at h
      · rename_i himg
        cases h
        simp [hdir, himg]
      · rename_i himg
        split at h
        · rename_i err hg
          cases h
          simp [hdir, himg, hg]
        · rename_i sig hg
          cases h
          simp [hdir, himg, hg]

theorem scan_sigs (lib : ImageLib) (cfg : Config) (fs : FS) (walk : List WalkEntry)
    (st st' : Stats × SigMap) (h : scan lib cfg fs st walk = .ok st') :
    (∀ e ∈ walk, e.err = false) ∧ st'.2 = walk.foldl (nextSigs lib cfg fs) st.2 := by
  induction walk generalizing st with
  | nil =>
    simp only [scan, Except.ok.injEq] at h
    subst h
    exact ⟨by simp, rfl⟩
  | cons e rest ih =>
    simp only [scan] at h
    cases hv : visit lib cfg fs st e with
    | error err => rw [hv] at h; cases h
    | ok st1 =>
      rw [hv] at h
      obtain ⟨h1, h2⟩ := visit_sigs lib cfg fs st st1 e hv
      obtain ⟨i1, i2⟩ := ih st1 h
      refine ⟨?_, ?_⟩
      · intro e' he'
        rcases List.mem_cons.mp he' with rfl | he''
        · exact h1
        · exact i1 e' he''
      · rw [i2, h2, List.foldl_cons]

theorem visit_ok_of_no_err (lib : ImageLib) (cfg : Config) (fs : FS) (st : Stats × SigMap)
    (e : WalkEntry) (h : e.err = false) : ∃ st', visit lib cfg fs st e = .ok st' := by
  cases hv : visit lib cfg fs st e with
  | ok st' => exact ⟨st', rfl⟩
  | error err =>
    exfalso
    obtain ⟨stats, sigs⟩ := st
    simp only [visit, h, Bool.false_eq_true, if_false] at hv
    split at hv
    · cases hv
    · split at hv
      · cases hv
      · split at hv <;> cases hv

theorem scan_ok_of_no_err (lib : ImageLib) (cfg : Config) (fs : FS) (walk : List WalkEntry)
    (st : Stats × SigMap) (h : ∀ e ∈ walk, e.err = false) :
    ∃ st', scan lib cfg fs st walk = .ok st' := by
  induction walk generalizing st with
  | nil => exact ⟨st, rfl⟩
  | cons e rest ih =>
    obtain ⟨st1, h1⟩ := visit_ok_of_no_err lib cfg fs st e (h e (List.mem_cons_self _ _))
    obtain ⟨st2, h2⟩ := ih st1 (fun e' he' => h e' (List.mem_cons_of_mem _ he'))
    exact ⟨st2, by simp only [scan, h1, h2]⟩

theorem members_appendSig (m : SigMap) (sig path : String) :
    (members (appendSig m sig path)).Perm (members m ++ [path]) := by
  induction m with
  | nil => simp [appendSig, members]
  | cons entry rest ih =>
    obtain ⟨k, files⟩ := entry
    simp only [appendSig]
    split
    · rw [members_cons, members_cons]
      simp only [List.append_assoc]
      refine List.Perm.append_left files ?_
      exact List.perm_append_comm
    · rw [members_cons, members_cons, List.append_assoc]
      exact List.Perm.append_left files ih

theorem members_foldl_nextSigs (lib : ImageLib) (cfg : Config) (fs : FS) (walk : List WalkEntry)
    (m : SigMap) :
    (members (walk.foldl (nextSigs lib cfg fs) m)).Perm (members m ++ signedPaths lib cfg fs walk) := by
  induction walk generalizing m with
  | nil => simp [signedPaths]
  | cons e rest ih =>
    rw [List.foldl_cons]
    refine (ih _).trans ?_
    simp only [nextSigs, signedPaths, List.filter_cons]
    cases hs : signedAs lib cfg fs e with
    | none => simp
    | some sig =>
      simp only [Option.isSome_some, if_true, List.map_cons]
      refine (List.Perm.append_right _ (members_appendSig m sig e.path)).trans ?_
      simp

theorem signedPaths_sublist (lib : ImageLib) (cfg : Config) (fs : FS) (walk : List WalkEntry) :
    (signedPaths lib cfg fs walk).Sublist (walk.map fun e => e.path) :=
  (List.filter_sublist walk).map _

theorem mem_signedPaths (lib : ImageLib) (cfg : Config) (fs : FS) (walk : List WalkEntry)
    (p : String) (h : p ∈ signedPaths lib cfg fs walk) :
    ∃ e ∈ walk, e.path = p ∧ (signedAs lib cfg fs e).isSome = true := by
  simp only [signedPaths, List.mem_map, List.mem_filter] at h
  obtain ⟨e, ⟨he, hs⟩, hp⟩ := h
  exact ⟨e, he, hp, hs⟩

theorem scan_members (lib : ImageLib) (cfg : Config) (fs : FS) (walk : List WalkEntry)
    (stats : Stats) (sigs : SigMap)
    (h : scan lib cfg fs (zeroStats, []) walk = .ok (stats, sigs)) :
    (members sigs).Perm (signedPaths lib cfg fs walk) := by
  obtain ⟨_, h2⟩ := scan_sigs lib cfg fs walk _ _ h
  simp only at h2
  rw [h2]
  simpa [members] using members_foldl_nextSigs lib cfg fs walk []

/-! ## Lemmas on `Run` -/

theorem Run_ok (lib : ImageLib) (srt : SortLib) (order : SigMap → List (String × List String))
    (dd : DuplicateDetector) (fs : FS) (walk : List WalkEntry) (r : RunResult)
    (h : Run lib srt order dd fs walk = .ok r) :
    ∃ stats sigs st, scan lib dd.config fs (zeroStats, dd.sigs) walk = .ok (stats, sigs) ∧
      processDuplicates srt dd.config { moved := 0, fs := fs, log := [] } (order sigs) = .ok st ∧
      r.stats = { stats with FilesMoved := st.moved, DuplicatesFound := countDuplicates sigs } ∧
      r.fs = st.fs ∧ r.log = st.log ∧ r.sigs = sigs := by
  unfold Run at h
  cases hs : scan lib dd.config fs (zeroStats, dd.sigs) walk with
  | error e => rw [hs] at h; cases h
  | ok res =>
    obtain ⟨stats, sigs⟩ := res
    rw [hs] at h
    simp only at h
    cases hp : processDuplicates srt dd.config { moved := 0, fs := fs, log := [] }
        (order sigs) with
    | error e => rw [hp] at h; cases h
    | ok st =>
      rw [hp] at h
      simp only [Except.ok.injEq] at h
      subst h
      exact ⟨stats, sigs, st, rfl, hp, rfl, rfl, rfl, rfl⟩

theorem members_perm (G G' : List (String × List String)) (h : G.Perm G') :
    (members G).Perm (members G') :=
  List.Perm.flatMap_right _ h

theorem mem_members (G : List (String × List String)) (sig : String) (files : List String)
    (p : String) (hg : (sig, files) ∈ G) (hp : p ∈ files) : p ∈ members G := by
  simp only [members, List.mem_flatMap]
  exact ⟨(sig, files), hg, hp⟩

theorem group_nodup (G : List (String × List String)) (sig : String) (files : List String)
    (hnd : (members G).Nodup) (hg : (sig, files) ∈ G) : files.Nodup := by
  unfold members at hnd
  rw [List.nodup_flatMap] at hnd
  exact hnd.1 (sig, files) hg

theorem mem_moveSet_of_group (srt : SortLib) (fs : FS) (G : List (String × List String))
    (sig : String) (files : List String) (p : String) (hnd : (members G).Nodup)
    (hg : (sig, files) ∈ G) (hp : p ∈ files) (hm : p ∈ moveSet srt fs G) :
    p ∈ toMove srt fs files := by
  simp only [moveSet, List.mem_flatMap] at hm
  obtain ⟨g2, hg2, hp2⟩ := hm
  by_cases heq : g2 = (sig, files)
  · rw [heq] at hp2
    exact hp2
  · exfalso
    unfold members at hnd
    rw [List.nodup_flatMap] at hnd
    have hsymm : Symmetric fun a b : String × List String => List.Disjoint a.2 b.2 :=
      fun a b hab => hab.symm
    exact hnd.2.forall hsymm hg2 hg heq (toMove_subset srt fs g2.2 p hp2) hp

theorem moveSet_of_group (srt : SortLib) (fs : FS) (G : List (String × List String))
    (sig : String) (files : List String) (p : String) (hg : (sig, files) ∈ G)
    (hp : p ∈ toMove srt fs files) : p ∈ moveSet srt fs G := by
  simp only [moveSet, List.mem_flatMap]
  exact ⟨(sig, files), hg, hp⟩

theorem signedAs_isFile (lib : ImageLib) (cfg : Config) (fs : FS) (e : WalkEntry)
    (h : (signedAs lib cfg fs e).isSome = true) : e.isDir = false := by
  unfold signedAs at h
  cases hd : e.isDir with
  | true => rw [hd] at h; simp at h
  | false => rfl

theorem walk_members (lib : ImageLib) (cfg : Config) (fs : FS) (walk : List WalkEntry)
    (stats : Stats) (sigs : SigMap)
    (h : scan lib cfg fs (zeroStats, []) walk = .ok (stats, sigs))
    (hnd : (walk.map fun e => e.path).Nodup) :
    (members sigs).Nodup ∧
    ∀ p ∈ members sigs, ∃ e ∈ walk, e.path = p ∧ (signedAs lib cfg fs e).isSome = true := by
  have hperm := scan_members lib cfg fs walk stats sigs h
  refine ⟨hperm.nodup_iff.mpr (hnd.sublist (signedPaths_sublist lib cfg fs walk)), ?_⟩
  intro p hp
  exact mem_signedPaths lib cfg fs walk p (hperm.mem_iff.mp hp)

/-- The outcome of the moving phase of a run of a new detector on a walk that
lists each path once and in which no file is at a destination candidate of a
file. -/
theorem Run_moves (lib : ImageLib) (srt : SortLib) (cfg : Config)
    (order : SigMap → List (String × List String))
    (fs : FS) (walk : List WalkEntry) (r : RunResult)
    (hrun : Run lib srt order (NewDuplicateDetector cfg) fs walk = .ok r)
    (horder : ∀ m, (order m).Perm m)
    (hnd : (walk.map fun e => e.path).Nodup)
    (hdis : ∀ e1 ∈ walk, ∀ e2 ∈ walk, e1.isDir = false → e2.isDir = false →
      e1.path ∉ destCandidates cfg e2.path) :
    ∃ stats sigs, scan lib cfg fs (zeroStats, []) walk = .ok (stats, sigs) ∧
      r.stats = { stats with FilesMoved := (moveSet srt fs (order sigs)).length,
                             DuplicatesFound := countDuplicates sigs } ∧
      r.sigs = sigs ∧
      (members (order sigs)).Nodup ∧
      (∀ p ∈ members (order sigs),
        r.fs p = if p ∈ moveSet srt fs (order sigs) then none else fs p) ∧
      (∀ e ∈ walk, e.isDir = false → e.path ∉ members (order sigs) → r.fs e.path = fs e.path) ∧
      (∀ p ∈ moveSet srt fs (order sigs), ∃ dst, (p, dst) ∈ r.log ∧
        dst ∈ destCandidates cfg p ∧
        ((r.log.map Prod.snd).count dst = 1 → r.fs dst = fs p)) ∧
      ((∀ p ∈ moveSet srt fs (order sigs), ∃ q ∈ destCandidates cfg p, r.fs q = none) →
        ∀ sd ∈ r.log, fs sd.2 = none ∧ r.fs sd.2 = fs sd.1) := by
  obtain ⟨stats, sigs, st, hscan, hpd, hstats, hfs, hlog, hsigs⟩ :=
    Run_ok lib srt order _ fs walk r hrun
  simp only [NewDuplicateDetector] at hscan hpd
  obtain ⟨hmnd, hmsub⟩ := walk_members lib cfg fs walk stats sigs hscan hnd
  have hperm := members_perm _ _ (horder sigs)
  have hGnd : (members (order sigs)).Nodup := hperm.nodup_iff.mpr hmnd
  have hGwalk : ∀ p ∈ members (order sigs), ∃ e ∈ walk, e.path = p ∧ e.isDir = false := by
    intro p hp
    obtain ⟨e, he, hpe, hsome⟩ := hmsub p (hperm.mem_iff.mp hp)
    exact ⟨e, he, hpe, signedAs_isFile lib cfg fs e hsome⟩
  have hGdis : ∀ p ∈ members (order sigs), ∀ q ∈ members (order sigs),
      p ∉ destCandidates cfg q := by
    intro p hp q hq
    obtain ⟨e1, he1, h1, hd1⟩ := hGwalk p hp
    obtain ⟨e2, he2, h2, hd2⟩ := hGwalk q hq
    rw [← h1, ← h2]
    exact hdis e1 he1 e2 he2 hd1 hd2
  obtain ⟨s1, s2, newLog, s4, s5, s6, s7, s8, _, s10⟩ :=
    processDuplicates_spec srt cfg _ _ st hpd hGnd hGdis
  simp only [Nat.zero_add, List.append_nil] at s1 s2 s4 s7 s8 s10
  refine ⟨stats, sigs, hscan, ?_, hsigs, hGnd, ?_, ?_, ?_, ?_⟩
  · rw [hstats, s1]
  · intro p hp
    rw [hfs]
    exact s2 p hp
  · intro e he hdir hnot
    rw [hfs]
    refine s7 e.path hnot ?_
    refine not_mem_dsts cfg _ newLog s5 s6 e.path ?_
    intro q hq
    obtain ⟨e2, he2, h2, hd2⟩ := hGwalk q (moveSet_subset srt _ _ q hq)
    rw [← h2]
    exact hdis e he e2 he2 hdir hd2
  · intro p hp
    have hmem : p ∈ newLog.map Prod.fst := by
      rw [s5]
      exact List.mem_reverse.mpr hp
    obtain ⟨sd, hsd, hsd1⟩ := List.mem_map.mp hmem
    refine ⟨sd.2, ?_, ?_, ?_⟩
    · rw [hlog, s4, ← hsd1]
      exact hsd
    · rw [← hsd1]
      exact s6 sd hsd
    · intro hcount
      rw [hlog, s4] at hcount
      rw [hfs, ← hsd1]
      exact s8 sd hsd hcount
  · intro hfree sd hsd
    rw [hlog, s4] at hsd
    obtain ⟨hndL, hfreeL⟩ := s10 (by
      intro p hp
      obtain ⟨q, hq, hqn⟩ := hfree p hp
      exact ⟨q, hq, by rw [← hfs]; simp [statOk, hqn]⟩)
    refine ⟨?_, ?_⟩
    · have := hfreeL sd hsd
      simpa [statOk] using this
    · rw [hfs]
      exact s8 sd hsd (List.count_eq_one_of_mem hndL (List.mem_map.mpr ⟨sd, hsd, rfl⟩))

theorem toMove_of_two (srt : SortLib) (fs : FS) (files : List String) (h : 2 ≤ files.length) :
    toMove srt fs files = (ranking srt fs files).drop 1 := by
  unfold toMove
  rw [if_neg (by omega)]

/-! ## The keeper and the moved files -/

/-- C1, amended: after a successful run of a new detector whose walk lists each
path once and in which no file is at a destination candidate of a file, in
every group of at least two paths: each path ranked after the first by
`SortByResolution` is no longer at its place and was renamed to a destination
candidate in the output directory, where its file is after the run unless the
run renamed another file to the same destination; every other path of the
group holds the file it held before, in particular the first-ranked path,
whose megapixel value is the greatest among the readable paths of the group,
and every path whose dimensions cannot be read.  This holds whichever of
several paths of equal megapixel value `sort.Slice` puts first.  Moreover, if
after the run each moved path still has a destination candidate that holds no
file, then every destination of a rename held no file before the run and holds
after the run the file that was renamed to it. -/
theorem Run_keeps_first_ranked (lib : ImageLib) (srt : SortLib) (cfg : Config)
    (order : SigMap → List (String × List String)) (fs : FS) (walk : List WalkEntry)
    (r : RunResult) (hrun : Run lib srt order (NewDuplicateDetector cfg) fs walk = .ok r)
    (horder : ∀ m, (order m).Perm m) (hnd : (walk.map fun e => e.path).Nodup)
    (hdis : ∀ e1 ∈ walk, ∀ e2 ∈ walk, e1.isDir = false → e2.isDir = false →
      e1.path ∉ destCandidates cfg e2.path) :
    ∃ stats sigs, scan lib cfg fs (zeroStats, []) walk = .ok (stats, sigs) ∧
      (∀ sig files, (sig, files) ∈ sigs → 2 ≤ files.length →
        (∀ p ∈ (ranking srt fs files).drop 1,
          r.fs p = none ∧ ∃ dst, (p, dst) ∈ r.log ∧ dst ∈ destCandidates cfg p ∧
            ((r.log.map Prod.snd).count dst = 1 → r.fs dst = fs p)) ∧
        (∀ p ∈ files, p ∉ (ranking srt fs files).drop 1 → r.fs p = fs p) ∧
        (∀ k, (ranking srt fs files).head? = some k →
          k ∈ files ∧ r.fs k = fs k ∧
          ∀ p ∈ files, readable fs p = true → megapixelsAt fs p ≤ megapixelsAt fs k) ∧
        (∀ p ∈ files, readable fs p = false → r.fs p = fs p)) ∧
      ((∀ sig files, (sig, files) ∈ sigs → 2 ≤ files.length →
          ∀ p ∈ (ranking srt fs files).drop 1, ∃ q ∈ destCandidates cfg p, r.fs q = none) →
        ∀ sd ∈ r.log, fs sd.2 = none ∧ r.fs sd.2 = fs sd.1) := by
  obtain ⟨stats, sigs, hscan, _, _, hGnd, hfsM, _, hlogM, hplaced⟩ :=
    Run_moves lib srt cfg order fs walk r hrun horder hnd hdis
  refine ⟨stats, sigs, hscan, ?_, ?_⟩
  swap
  · intro hfree
    apply hplaced
    intro p hp
    simp only [moveSet, List.mem_flatMap] at hp
    obtain ⟨g, hg, hpg⟩ := hp
    obtain ⟨sig, files⟩ := g
    have hgs : (sig, files) ∈ sigs := (horder sigs).mem_iff.mp hg
    by_cases hlen : 2 ≤ files.length
    · rw [toMove_of_two srt fs files hlen] at hpg
      exact hfree sig files hgs hlen p hpg
    · exfalso
      simp only [toMove] at hpg
      rw [if_pos (by omega)] at hpg
      cases hpg
  intro sig files hg hlen
  have hG : (sig, files) ∈ order sigs := (horder sigs).mem_iff.mpr hg
  have htm := toMove_of_two srt fs files hlen
  have hkeep : ∀ p ∈ files, p ∉ (ranking srt fs files).drop 1 → r.fs p = fs p := by
    intro p hp hnot
    have hnotM : p ∉ moveSet srt fs (order sigs) := by
      intro hm
      have := mem_moveSet_of_group srt fs _ sig files p hGnd hG hp hm
      rw [htm] at this
      exact hnot this
    rw [hfsM p (mem_members _ sig files p hG hp)]
    simp [hnotM]
  have hRnd : (ranking srt fs files).Nodup :=
    ranking_nodup srt fs files (group_nodup _ sig files hGnd hG)
  refine ⟨?_, hkeep, ?_, ?_⟩
  · intro p hp
    have hpt : p ∈ toMove srt fs files := by rw [htm]; exact hp
    have hpM := moveSet_of_group srt fs _ sig files p hG hpt
    refine ⟨?_, hlogM p hpM⟩
    rw [hfsM p (mem_members _ sig files p hG (toMove_subset srt fs files p hpt))]
    simp [hpM]
  · intro k hk
    cases hR : ranking srt fs files with
    | nil => rw [hR] at hk; simp at hk
    | cons k2 tail =>
      rw [hR] at hk
      simp only [List.head?_cons, Option.some.injEq] at hk
      subst hk
      have hkR : k2 ∈ ranking srt fs files := by rw [hR]; exact List.mem_cons_self _ _
      have hkF := (ranking_subset srt fs files k2 hkR).1
      rw [hR, List.nodup_cons] at hRnd
      refine ⟨hkF, hkeep k2 hkF (by rw [hR]; simpa using hRnd.1), ?_⟩
      intro p hp hr
      have hpR : p ∈ ranking srt fs files :=
        (ranking_perm srt fs files).mem_iff.mpr (List.mem_filter.mpr ⟨hp, hr⟩)
      have hdesc := ranking_descending srt fs files
      rw [hR] at hpR hdesc
      rw [List.pairwise_cons] at hdesc
      rcases List.mem_cons.mp hpR with rfl | hpt
      · exact le_refl _
      · exact hdesc.1 p hpt
  · intro p hp hr
    refine hkeep p hp ?_
    intro hd
    have := (ranking_subset srt fs files p (List.mem_of_mem_drop hd)).2
    rw [hr] at this
    cases this

/-! ## Counting the moves -/

theorem readable_iff (fs : FS) (p : String) :
    readable fs p = true ↔ ∃ f, fs p = some f ∧ f.config.isSome = true := by
  unfold readable GetImageDimensions
  cases hf : fs p with
  | none => simp
  | some f =>
    cases hc : f.config with
    | none => simp [hc]
    | some d =>
      obtain ⟨w, ht⟩ := d
      simp [hc]

theorem moveFiles_count (cfg : Config) (L : List String) (st st' : Moved)
    (h : moveFiles cfg st L = .ok st') : st'.moved = st.moved + L.length := by
  induction L generalizing st with
  | nil =>
    simp only [moveFiles, Except.ok.injEq] at h
    subst h
    simp
  | cons src rest ih =>
    simp only [moveFiles] at h
    cases hr : rename st.fs src (handleDuplicateFilename st.fs (Join cfg.OutputDir (Base src))) with
    | error e => rw [hr] at h; cases h
    | ok fs1 =>
      rw [hr] at h
      simp only at h
      rw [ih _ h]
      simp only [List.length_cons]
      omega

theorem moveFiles_readable (cfg : Config) (L T : List String) (st st' : Moved)
    (h : moveFiles cfg st L = .ok st') (hLT : ∀ p ∈ T, p ∉ L)
    (hL : ∀ p ∈ L, st.fs p = none ∨ readable st.fs p = true)
    (hT : ∀ p ∈ T, readable st.fs p = true) : ∀ p ∈ T, readable st'.fs p = true := by
  induction L generalizing st with
  | nil =>
    simp only [moveFiles, Except.ok.injEq] at h
    subst h
    exact hT
  | cons src rest ih =>
    simp only [moveFiles] at h
    cases hr : rename st.fs src (handleDuplicateFilename st.fs (Join cfg.OutputDir (Base src))) with
    | error e => rw [hr] at h; cases h
    | ok fs1 =>
      rw [hr] at h
      simp only at h
      obtain ⟨f, hf, hfs1⟩ := rename_ok _ _ _ _ hr
      have hfr : f.config.isSome = true := by
        rcases hL src (List.mem_cons_self _ _) with hnone | hread
        · rw [hnone] at hf; cases hf
        · obtain ⟨f', hf', hc⟩ := (readable_iff st.fs src).mp hread
          rw [hf] at hf'
          cases hf'
          exact hc
      have hstep : ∀ p, p ≠ src → readable st.fs p = true → readable fs1 p = true := by
        intro p hne hrd
        rw [readable_iff] at hrd ⊢
        rw [hfs1 p]
        by_cases hd : p = handleDuplicateFilename st.fs (Join cfg.OutputDir (Base src))
        · exact ⟨f, by simp [hd], hfr⟩
        · obtain ⟨f', hf', hc⟩ := hrd
          exact ⟨f', by simp [hd, hne, hf'], hc⟩
      refine ih _ h (fun p hp hr' => hLT p hp (List.mem_cons_of_mem _ hr')) ?_ ?_
      · intro p hp
        simp only
        by_cases hd : p = handleDuplicateFilename st.fs (Join cfg.OutputDir (Base src))
        · right
          rw [readable_iff]
          exact ⟨f, by rw [hfs1 p]; simp [hd], hfr⟩
        · by_cases hne : p = src
          · left
            rw [hfs1 p, if_neg hd, if_pos hne]
          · rcases hL p (List.mem_cons_of_mem _ hp) with hnone | hread
            · left
              rw [hfs1 p]
              simp [hd, hne, hnone]
            · exact Or.inr (hstep p hne hread)
      · intro p hp
        exact hstep p (fun heq => hLT p hp (by rw [heq]; exact List.mem_cons_self _ _)) (hT p hp)

theorem ranking_length (srt : SortLib) (fs : FS) (files : List String) :
    (ranking srt fs files).length = files.countP (readable fs) := by
  rw [(ranking_perm srt fs files).length_eq, List.countP_eq_length_filter]

theorem toMove_length (srt : SortLib) (fs : FS) (files : List String) :
    (toMove srt fs files).length =
      if files.length ≤ 1 then 0 else files.countP (readable fs) - 1 := by
  unfold toMove
  split
  · rfl
  · rw [List.length_drop, ranking_length srt]

theorem countP_of_all {α : Type} (q : α → Bool) (l : List α) (h : ∀ a ∈ l, q a = true) :
    l.countP q = l.length := by
  rw [List.countP_eq_length_filter, List.filter_eq_self.mpr h]

theorem processDuplicates_count (srt : SortLib) (cfg : Config) (G : List (String × List String))
    (st st1 : Moved) (h : processDuplicates srt cfg st G = .ok st1)
    (hdisj : G.Pairwise fun a b => ∀ p ∈ a.2, p ∉ b.2)
    (hread : ∀ g ∈ G, 2 ≤ g.2.length → ∀ p ∈ g.2, readable st.fs p = true) :
    st1.moved = st.moved + (G.map fun g => if g.2.length ≤ 1 then 0 else g.2.length - 1).sum := by
  induction G generalizing st with
  | nil =>
    simp only [processDuplicates, Except.ok.injEq] at h
    subst h
    simp
  | cons g rest ih =>
    obtain ⟨sig, files⟩ := g
    rw [processDuplicates_cons srt] at h
    rw [List.pairwise_cons] at hdisj
    cases hm : moveFiles cfg st (toMove srt st.fs files) with
    | error e => rw [hm] at h; cases h
    | ok st' =>
      rw [hm] at h
      simp only at h
      have hcount := moveFiles_count cfg _ st st' hm
      have hlen : (toMove srt st.fs files).length = if files.length ≤ 1 then 0 else files.length - 1 := by
        rw [toMove_length srt]
        split
        · rfl
        · rw [countP_of_all _ _ (hread (sig, files) (List.mem_cons_self _ _) (by simp only; omega))]
      have hkeep : ∀ g ∈ rest, 2 ≤ g.2.length → ∀ p ∈ g.2, readable st'.fs p = true := by
        intro g hg hlen2
        refine moveFiles_readable cfg (toMove srt st.fs files) g.2 st st' hm ?_ ?_ ?_
        · intro p hp hL
          exact hdisj.1 g hg p (toMove_subset srt st.fs files p hL) hp
        · intro p hp
          right
          unfold toMove at hp
          split at hp
          · simp at hp
          · exact (ranking_subset srt st.fs files p (List.mem_of_mem_drop hp)).2
        · exact hread g (List.mem_cons_of_mem _ hg) hlen2
      rw [ih st' h hdisj.2 hkeep, hcount, hlen]
      simp only [List.map_cons, List.sum_cons]
      omega

theorem appendSig_keys (m : SigMap) (sig path : String) :
    (appendSig m sig path).map Prod.fst =
      if sig ∈ m.map Prod.fst then m.map Prod.fst else m.map Prod.fst ++ [sig] := by
  induction m with
  | nil => simp [appendSig]
  | cons entry rest ih =>
    obtain ⟨k, files⟩ := entry
    simp only [appendSig]
    by_cases hk : k = sig
    · simp [hk]
    · have hk' : ¬ sig = k := fun h => hk h.symm
      simp only [hk, if_false, List.map_cons, ih, List.mem_cons, hk', false_or]
      split <;> simp

theorem appendSig_keys_nodup (m : SigMap) (sig path : String) (h : (m.map Prod.fst).Nodup) :
    ((appendSig m sig path).map Prod.fst).Nodup := by
  rw [appendSig_keys]
  split
  · exact h
  · rename_i hnot
    rw [List.nodup_append]
    refine ⟨h, List.nodup_singleton _, ?_⟩
    intro a ha hb
    simp only [List.mem_singleton] at hb
    subst hb
    exact hnot ha

theorem foldl_nextSigs_keys_nodup (lib : ImageLib) (cfg : Config) (fs : FS)
    (walk : List WalkEntry) (m : SigMap) (h : (m.map Prod.fst).Nodup) :
    ((walk.foldl (nextSigs lib cfg fs) m).map Prod.fst).Nodup := by
  induction walk generalizing m with
  | nil => exact h
  | cons e rest ih =>
    rw [List.foldl_cons]
    apply ih
    unfold nextSigs
    cases signedAs lib cfg fs e with
    | none => exact h
    | some sig => exact appendSig_keys_nodup m sig e.path h

theorem scan_keys_nodup (lib : ImageLib) (cfg : Config) (fs : FS) (walk : List WalkEntry)
    (stats : Stats) (sigs : SigMap)
    (h : scan lib cfg fs (zeroStats, []) walk = .ok (stats, sigs)) :
    (sigs.map Prod.fst).Nodup := by
  obtain ⟨_, h2⟩ := scan_sigs lib cfg fs walk _ _ h
  simp only at h2
  rw [h2]
  exact foldl_nextSigs_keys_nodup lib cfg fs walk [] (by simp)

theorem scan_groups_disjoint (lib : ImageLib) (cfg : Config) (fs : FS) (walk : List WalkEntry)
    (stats : Stats) (sigs : SigMap)
    (h : scan lib cfg fs (zeroStats, []) walk = .ok (stats, sigs)) :
    sigs.Pairwise fun a b => ∀ p ∈ a.2, p ∉ b.2 := by
  have hkeys := scan_keys_nodup lib cfg fs walk stats sigs h
  have hw : wellSigned lib cfg fs sigs :=
    scan_wellSigned lib cfg fs walk (zeroStats, []) (stats, sigs) h
      (by intro sig files hmem; simp at hmem)
  unfold List.Nodup at hkeys
  rw [List.pairwise_map] at hkeys
  refine List.Pairwise.imp_of_mem ?_ hkeys
  intro a b ha hb hne p hpa hpb
  have h1 := hw a.1 a.2 ha p hpa
  have h2 := hw b.1 b.2 hb p hpb
  rw [h1] at h2
  simp only [Except.ok.injEq] at h2
  exact hne h2

theorem countDuplicates_eq (sigs : SigMap) :
    countDuplicates sigs = sigs.countP fun g => decide (2 ≤ g.2.length) := by
  induction sigs with
  | nil => rfl
  | cons g rest ih =>
    obtain ⟨sig, files⟩ := g
    simp only [countDuplicates, List.countP_cons, ih]
    by_cases h : files.length > 1
    · have h2 : 2 ≤ files.length := h
      simp [h, h2]
    · have h2 : ¬ 2 ≤ files.length := h
      simp [h, h2]

theorem sum_moves_add_count (sigs : SigMap) :
    (sigs.map fun g => if g.2.length ≤ 1 then 0 else g.2.length - 1).sum
        + sigs.countP (fun g => decide (2 ≤ g.2.length))
      = ((sigs.filter fun g => decide (2 ≤ g.2.length)).map fun g => g.2.length).sum := by
  induction sigs with
  | nil => rfl
  | cons g rest ih =>
    simp only [List.map_cons, List.sum_cons, List.countP_cons, List.filter_cons]
    by_cases h : 2 ≤ g.2.length
    · have h1 : ¬ g.2.length ≤ 1 := by omega
      simp only [h, h1, decide_True, if_true, if_false, List.map_cons, List.sum_cons]
      omega
    · have h1 : g.2.length ≤ 1 := by omega
      simp only [h, h1, decide_False, if_true, List.map_cons, List.sum_cons]
      simp only [Bool.false_eq_true, if_false]
      omega

/-! ## Facts about the concrete inputs -/

theorem twinsWalk_disjoint :
    ∀ e1 ∈ twinsWalk, ∀ e2 ∈ twinsWalk, e1.path ∉ destCandidates outsideCfg e2.path := by
  have hcand : ∀ e2 ∈ twinsWalk, ∀ q ∈ destCandidates outsideCfg e2.path,
      q.data.head? = some 'o' := by
    intro e2 he2
    simp only [twinsWalk, List.mem_cons, List.mem_singleton, List.not_mem_nil, or_false] at he2
    rcases he2 with rfl | rfl | rfl | rfl
    · exact destCandidates_head outsideCfg "in" 'i' ['n'] [] (by decide) (by decide) (by decide)
        (by decide) (by decide) (by decide) (by decide) (by decide)
    · exact destCandidates_head outsideCfg "in/a.jpg" 'a' [] ['.', 'j', 'p', 'g'] (by decide)
        (by decide) (by decide) (by decide) (by decide) (by decide) (by decide) (by decide)
    · exact destCandidates_head outsideCfg "in/b.jpg" 'b' [] ['.', 'j', 'p', 'g'] (by decide)
        (by decide) (by decide) (by decide) (by decide) (by decide) (by decide) (by decide)
    · exact destCandidates_head outsideCfg "in/c.jpg" 'c' [] ['.', 'j', 'p', 'g'] (by decide)
        (by decide) (by decide) (by decide) (by decide) (by decide) (by decide) (by decide)
  have hwalk : ∀ e1 ∈ twinsWalk, e1.path.data.head? = some 'i' := by decide
  intro e1 he1 e2 he2 hmem
  have h1 := hcand e2 he2 e1.path hmem
  rw [hwalk e1 he1] at h1
  exact absurd h1 (by decide)

theorem twinsWalk_nodup : (twinsWalk.map fun e => e.path).Nodup := by
  decide

theorem twinsWalk_scan :
    scan toyLib outsideCfg twinsAndCorrupt (zeroStats, []) twinsWalk
      = .ok (⟨3, 3, 0, 0⟩, [("md5-of-[1, 1, 2, 3, 4]", ["in/a.jpg", "in/b.jpg"])]) := by
  decide

set_option maxRecDepth 100000 in
theorem twinsWalk_ranking :
    ranking insertionLib twinsAndCorrupt ["in/a.jpg", "in/b.jpg"] = ["in/a.jpg", "in/b.jpg"] := by
  decide

set_option maxRecDepth 100000 in
theorem twinsWalk_run_succeeds :
    succeeded (Run toyLib insertionLib id (NewDuplicateDetector outsideCfg) twinsAndCorrupt
      twinsWalk) = true := by
  decide

set_option maxRecDepth 100000 in
theorem twinsWalk_run_log :
    (Run toyLib insertionLib id (NewDuplicateDetector outsideCfg) twinsAndCorrupt
      twinsWalk).map (fun r => r.log) = .ok [("in/b.jpg", "out/b.jpg")] := by
  decide

/-! ## The keeper: counterexample and witness -/

set_option maxRecDepth 100000 in
/-- C1, counterexample: `in/a.jpg` and `in/b.jpg` form a group of two and the
header of `in/b.jpg` cannot be read; the run succeeds, moves nothing, and both
members are still in place. -/
theorem Run_unreadable_member_counterexample :
    (scan toyLib outsideCfg twinsOneUnreadable (zeroStats, []) pairWalk).map Prod.snd
      = .ok [("md5-of-[1, 1, 2, 3, 4]", ["in/a.jpg", "in/b.jpg"])] ∧
    readable twinsOneUnreadable "in/b.jpg" = false ∧
    (Run toyLib insertionLib id (NewDuplicateDetector outsideCfg) twinsOneUnreadable
        pairWalk).map (fun r => (statOk r.fs "in/a.jpg", statOk r.fs "in/b.jpg", r.log))
      = .ok (true, true, []) := by
  decide

/-- C1, witness: on the two copies and the corrupt file the run leaves
`in/a.jpg` as it was and moves `in/b.jpg` away, to `out/b.jpg`, where its file
is after the run. -/
theorem Run_keeps_first_ranked_witness :
    ∃ r, Run toyLib insertionLib id (NewDuplicateDetector outsideCfg) twinsAndCorrupt
        twinsWalk = .ok r ∧
      r.fs "in/a.jpg" = twinsAndCorrupt "in/a.jpg" ∧ r.fs "in/b.jpg" = none ∧
      r.fs "out/b.jpg" = twinsAndCorrupt "in/b.jpg" := by
  cases h : Run toyLib insertionLib id (NewDuplicateDetector outsideCfg) twinsAndCorrupt
      twinsWalk with
  | error e =>
    have hok := twinsWalk_run_succeeds
    rw [h] at hok
    cases hok
  | ok r =>
    have hlog := twinsWalk_run_log
    rw [h] at hlog
    simp only [Except.map, Except.ok.injEq] at hlog
    obtain ⟨stats, sigs, hscan, hgroups, _⟩ := Run_keeps_first_ranked toyLib insertionLib
      outsideCfg id twinsAndCorrupt twinsWalk r h (fun m => List.Perm.refl m) twinsWalk_nodup
      (fun e1 he1 e2 he2 _ _ => twinsWalk_disjoint e1 he1 e2 he2)
    rw [twinsWalk_scan] at hscan
    simp only [Except.ok.injEq, Prod.mk.injEq] at hscan
    obtain ⟨_, hsigs⟩ := hscan
    obtain ⟨hmoved, hkept, _, _⟩ := hgroups "md5-of-[1, 1, 2, 3, 4]" ["in/a.jpg", "in/b.jpg"]
      (by rw [← hsigs]; exact List.mem_singleton.mpr rfl) (by decide)
    rw [twinsWalk_ranking] at hmoved hkept
    obtain ⟨hgone, dst, hdst, _, hplaced⟩ := hmoved "in/b.jpg" (by decide)
    rw [hlog] at hdst hplaced
    simp only [List.mem_singleton, Prod.mk.injEq, true_and] at hdst
    subst hdst
    exact ⟨r, rfl, hkept "in/a.jpg" (by decide) (by decide), hgone, hplaced (by decide)⟩

/-! ## The statistics -/

theorem moveSet_length (srt : SortLib) (fs : FS) (G : List (String × List String)) :
    (moveSet srt fs G).length
      = (G.map fun g => if g.2.length ≤ 1 then 0 else g.2.countP (readable fs) - 1).sum := by
  unfold moveSet
  rw [List.length_flatMap]
  congr 1
  apply List.map_congr_left
  intro g _
  simp only [Function.comp]
  exact toMove_length srt fs g.2

set_option maxRecDepth 100000 in
/-- C9, counterexample: `in/a.jpg` and `in/b.jpg` form the one duplicate group, of
two paths, and the header of `in/b.jpg` cannot be read; the run succeeds and
reports one duplicate group and no file moved. -/
theorem Run_unreadable_stats_counterexample :
    (scan toyLib outsideCfg twinsOneUnreadable (zeroStats, []) pairWalk).map Prod.snd
      = .ok [("md5-of-[1, 1, 2, 3, 4]", ["in/a.jpg", "in/b.jpg"])] ∧
    (Run toyLib insertionLib id (NewDuplicateDetector outsideCfg) twinsOneUnreadable
        pairWalk).map (fun r => r.stats)
      = .ok ⟨2, 2, 1, 0⟩ := by
  decide

/-- C9, amended: after a successful run of a new detector `DuplicatesFound` is
the number of signatures with at least two paths.  If the dimensions of every
path of those groups can be read, `FilesMoved` is the total number of paths in
those groups minus `DuplicatesFound`.  If the walk lists each path once and no
file in it is at a destination candidate of a file, each group of at least two
paths contributes to `FilesMoved` the number of its paths with readable
dimensions less one, and nothing when none is readable.  This holds for every
`sort.Slice` and every order of the map. -/
theorem Run_stats_formula (lib : ImageLib) (srt : SortLib) (cfg : Config)
    (order : SigMap → List (String × List String)) (fs : FS) (walk : List WalkEntry)
    (r : RunResult) (hrun : Run lib srt order (NewDuplicateDetector cfg) fs walk = .ok r)
    (horder : ∀ m, (order m).Perm m) :
    ∃ stats sigs, scan lib cfg fs (zeroStats, []) walk = .ok (stats, sigs) ∧
      r.stats.TotalFiles = stats.TotalFiles ∧ r.stats.ImagesFound = stats.ImagesFound ∧
      r.stats.DuplicatesFound = sigs.countP (fun g => decide (2 ≤ g.2.length)) ∧
      ((∀ g ∈ sigs, 2 ≤ g.2.length → ∀ p ∈ g.2, readable fs p = true) →
        r.stats.FilesMoved + r.stats.DuplicatesFound
          = ((sigs.filter fun g => decide (2 ≤ g.2.length)).map fun g => g.2.length).sum) ∧
      ((walk.map fun e => e.path).Nodup →
        (∀ e1 ∈ walk, ∀ e2 ∈ walk, e1.isDir = false → e2.isDir = false →
          e1.path ∉ destCandidates cfg e2.path) →
        r.stats.FilesMoved
          = (sigs.map fun g =>
              if g.2.length ≤ 1 then 0 else g.2.countP (readable fs) - 1).sum) := by
  obtain ⟨stats, sigs, st, hscan, hpd, hstats, hfs, hlog, _⟩ :=
    Run_ok lib srt order _ fs walk r hrun
  simp only [NewDuplicateDetector] at hscan hpd
  refine ⟨stats, sigs, hscan, by rw [hstats], by rw [hstats], ?_, ?_, ?_⟩
  · rw [hstats]
    exact countDuplicates_eq sigs
  · intro hread
    have hdisj : (order sigs).Pairwise fun a b => ∀ p ∈ a.2, p ∉ b.2 :=
      (horder sigs).symm.pairwise (scan_groups_disjoint lib cfg fs walk stats sigs hscan)
        (fun hab p hp hq => hab p hq hp)
    have hcount := processDuplicates_count srt cfg (order sigs) _ st hpd hdisj
      (fun g hg => hread g ((horder sigs).mem_iff.mp hg))
    rw [((horder sigs).map _).sum_eq] at hcount
    rw [hstats]
    simp only
    rw [hcount, countDuplicates_eq, Nat.zero_add]
    exact sum_moves_add_count sigs
  · intro hnd hdis
    obtain ⟨stats2, sigs2, hscan2, hstats2, _⟩ :=
      Run_moves lib srt cfg order fs walk r hrun horder hnd hdis
    rw [hscan] at hscan2
    simp only [Except.ok.injEq, Prod.mk.injEq] at hscan2
    obtain ⟨_, hsigs⟩ := hscan2
    subst hsigs
    rw [hstats2]
    simp only
    rw [moveSet_length srt, ((horder sigs).map _).sum_eq]

set_option maxRecDepth 100000 in
/-- C9, witness: on the two copies and the corrupt file the run reports one
duplicate group and one file moved; on the two copies alone the statistics are
2 files, 2 images, 1 duplicate group, 1 file moved. -/
theorem Run_stats_formula_witness :
    (∃ r, Run toyLib insertionLib id (NewDuplicateDetector outsideCfg) twinsAndCorrupt
        twinsWalk = .ok r ∧
      r.stats.DuplicatesFound = 1 ∧ r.stats.FilesMoved = 1) ∧
    (Run toyLib insertionLib id (NewDuplicateDetector outsideCfg) twins pairWalk).map
        (fun r => r.stats) = .ok ⟨2, 2, 1, 1⟩ := by
  refine ⟨?_, by decide⟩
  cases h : Run toyLib insertionLib id (NewDuplicateDetector outsideCfg) twinsAndCorrupt
      twinsWalk with
  | error e =>
    have hok := twinsWalk_run_succeeds
    rw [h] at hok
    cases hok
  | ok r =>
    obtain ⟨stats, sigs, hscan, _, _, hdup, hall, hmoved⟩ := Run_stats_formula toyLib
      insertionLib outsideCfg id twinsAndCorrupt twinsWalk r h (fun m => List.Perm.refl m)
    rw [twinsWalk_scan] at hscan
    simp only [Except.ok.injEq, Prod.mk.injEq] at hscan
    obtain ⟨_, hsigs⟩ := hscan
    subst hsigs
    have hm := hmoved twinsWalk_nodup
      (fun e1 he1 e2 he2 _ _ => twinsWalk_disjoint e1 he1 e2 he2)
    have hsum := hall (by decide)
    refine ⟨r, rfl, ?_, ?_⟩
    · rw [hdup]
      decide
    · rw [hm]
      decide

/-! ## Lemmas for a second run -/

theorem appendSig_mem_new (m : SigMap) (sig path : String) :
    ∃ files, (sig, files) ∈ appendSig m sig path ∧ path ∈ files := by
  induction m with
  | nil => exact ⟨[path], by simp [appendSig], by simp⟩
  | cons entry rest ih =>
    obtain ⟨k, files⟩ := entry
    simp only [appendSig]
    by_cases hk : k = sig
    · subst hk
      exact ⟨files ++ [path], by simp, by simp⟩
    · obtain ⟨files', h1, h2⟩ := ih
      exact ⟨files', by simp only [hk, if_false]; exact List.mem_cons_of_mem _ h1, h2⟩

theorem appendSig_mono (m : SigMap) (sig path k p : String) (files : List String)
    (hmem : (k, files) ∈ m) (hp : p ∈ files) :
    ∃ files', (k, files') ∈ appendSig m sig path ∧ p ∈ files' := by
  induction m with
  | nil => simp at hmem
  | cons entry rest ih =>
    obtain ⟨k0, f0⟩ := entry
    simp only [appendSig]
    rcases List.mem_cons.mp hmem with heq | hrest
    · simp only [Prod.mk.injEq] at heq
      obtain ⟨hk, hf⟩ := heq
      subst hk hf
      by_cases hks : k = sig
      · exact ⟨files ++ [path], by simp [hks], List.mem_append_left _ hp⟩
      · exact ⟨files, by simp [hks], hp⟩
    · obtain ⟨files', h1, h2⟩ := ih hrest
      by_cases hks : k0 = sig
      · exact ⟨files, by simp only [hks, if_true]; exact List.mem_cons_of_mem _ hrest, hp⟩
      · exact ⟨files', by simp only [hks, if_false]; exact List.mem_cons_of_mem _ h1, h2⟩

theorem foldl_nextSigs_mono (lib : ImageLib) (cfg : Config) (fs : FS) (walk : List WalkEntry)
    (m : SigMap) (k p : String) (files : List String) (hmem : (k, files) ∈ m) (hp : p ∈ files) :
    ∃ files', (k, files') ∈ walk.foldl (nextSigs lib cfg fs) m ∧ p ∈ files' := by
  induction walk generalizing m files with
  | nil => exact ⟨files, hmem, hp⟩
  | cons e rest ih =>
    rw [List.foldl_cons]
    unfold nextSigs
    cases signedAs lib cfg fs e with
    | none => exact ih m files hmem hp
    | some sig =>
      obtain ⟨files', h1, h2⟩ := appendSig_mono m sig e.path k p files hmem hp
      exact ih _ files' h1 h2

theorem foldl_nextSigs_complete (lib : ImageLib) (cfg : Config) (fs : FS)
    (walk : List WalkEntry) (m : SigMap) (e : WalkEntry) (sig : String) (he : e ∈ walk)
    (hs : signedAs lib cfg fs e = some sig) :
    ∃ files, (sig, files) ∈ walk.foldl (nextSigs lib cfg fs) m ∧ e.path ∈ files := by
  induction walk generalizing m with
  | nil => simp at he
  | cons e' rest ih =>
    rw [List.foldl_cons]
    rcases List.mem_cons.mp he with heq | hrest
    · subst heq
      obtain ⟨files, h1, h2⟩ := appendSig_mem_new m sig e.path
      have hnext : nextSigs lib cfg fs m e = appendSig m sig e.path := by
        simp only [nextSigs, hs]
      rw [hnext]
      exact foldl_nextSigs_mono lib cfg fs rest _ sig e.path files h1 h2
    · exact ih _ hrest

theorem signedAs_some (lib : ImageLib) (cfg : Config) (fs : FS) (e : WalkEntry) (sig : String) :
    signedAs lib cfg fs e = some sig ↔
      e.isDir = false ∧ IsImageFile e.path = true ∧
        GenerateSignature lib fs e.path cfg.ThumbnailSize = .ok sig := by
  unfold signedAs
  cases hd : e.isDir with
  | true => simp
  | false =>
    cases hi : IsImageFile e.path with
    | false => simp
    | true =>
      cases hg : GenerateSignature lib fs e.path cfg.ThumbnailSize with
      | error err => simp
      | ok s => simp

theorem GenerateSignature_congr (lib : ImageLib) (fs fs' : FS) (p : String) (size : Int)
    (h : fs p = fs' p) : GenerateSignature lib fs p size = GenerateSignature lib fs' p size := by
  simp only [GenerateSignature, LoadImage, h]

theorem readable_congr (fs fs' : FS) (p : String) (h : fs p = fs' p) :
    readable fs p = readable fs' p := by
  simp only [readable, GetImageDimensions_congr fs fs' p h]

theorem group_unique (sigs : SigMap) (sig : String) (f f' : List String)
    (hk : (sigs.map Prod.fst).Nodup) (h : (sig, f) ∈ sigs) (h' : (sig, f') ∈ sigs) : f = f' := by
  induction sigs with
  | nil => simp at h
  | cons g rest ih =>
    rw [List.map_cons, List.nodup_cons] at hk
    rcases List.mem_cons.mp h with heq | hr
    · rcases List.mem_cons.mp h' with heq' | hr'
      · rw [← heq] at heq'
        simp only [Prod.mk.injEq] at heq'
        exact heq'.2.symm
      · exfalso
        apply hk.1
        rw [← heq]
        exact List.mem_map.mpr ⟨(sig, f'), hr', rfl⟩
    · rcases List.mem_cons.mp h' with heq' | hr'
      · exfalso
        apply hk.1
        rw [← heq']
        exact List.mem_map.mpr ⟨(sig, f), hr, rfl⟩
      · exact ih hk.2 hr hr'

theorem eq_of_mem_not_mem_drop {α : Type} (l : List α) (x y : α) (hx : x ∈ l)
    (hx' : x ∉ l.drop 1) (hy : y ∈ l) (hy' : y ∉ l.drop 1) : x = y := by
  cases l with
  | nil => simp at hx
  | cons a tail =>
    simp only [List.drop_succ_cons, List.drop_zero] at hx' hy'
    rcases List.mem_cons.mp hx with rfl | hxt
    · rcases List.mem_cons.mp hy with rfl | hyt
      · rfl
      · exact absurd hyt hy'
    · exact absurd hxt hx'

theorem eq_of_mem_short {α : Type} (l : List α) (x y : α) (hlen : l.length ≤ 1)
    (hx : x ∈ l) (hy : y ∈ l) : x = y := by
  cases l with
  | nil => simp at hx
  | cons a tail =>
    cases tail with
    | nil =>
      simp only [List.mem_singleton] at hx hy
      rw [hx, hy]
    | cons b rest => simp at hlen

theorem length_le_one_of_all_eq {α : Type} (l : List α) (hnd : l.Nodup)
    (h : ∀ x ∈ l, ∀ y ∈ l, x = y) : l.length ≤ 1 := by
  cases l with
  | nil => simp
  | cons a tail =>
    cases tail with
    | nil => simp
    | cons b rest =>
      exfalso
      rw [List.nodup_cons] at hnd
      apply hnd.1
      rw [h a (List.mem_cons_self _ _) b (List.mem_cons_of_mem _ (List.mem_cons_self _ _))]
      exact List.mem_cons_self _ _

theorem processDuplicates_noop (srt : SortLib) (cfg : Config) (G : List (String × List String)) (st : Moved)
    (h : ∀ g ∈ G, toMove srt st.fs g.2 = []) : processDuplicates srt cfg st G = .ok st := by
  induction G with
  | nil => rfl
  | cons g rest ih =>
    obtain ⟨sig, files⟩ := g
    rw [processDuplicates_cons srt, h (sig, files) (List.mem_cons_self _ _)]
    simp only [moveFiles]
    exact ih (fun g hg => h g (List.mem_cons_of_mem _ hg))

/-! ## Running twice -/

set_option maxRecDepth 100000 in
/-- C6, counterexample: with the default output directory `in/duplicates` the
first run on the two copies moves `in/b.jpg` to `in/duplicates/b.jpg`, inside
the walked tree; the second run, of a new detector on the walk of the resulting
tree, finds the two copies again and moves `in/duplicates/b.jpg` to
`in/duplicates/b_1.jpg`.  With the output directory `out` outside the tree, a
second `Run` of the same detector, whose map still lists `in/a.jpg` and
`in/b.jpg`, files `in/a.jpg` a second time and moves the keeper to
`out/a.jpg`. -/
theorem Run_twice_counterexample :
    defaultCfg.OutputDir = "in/duplicates" ∧
    (Run toyLib insertionLib id (NewDuplicateDetector defaultCfg) twins pairWalk).map
        (fun r => (r.stats, secondWalk.map (fun e => e.isDir || statOk r.fs e.path),
          statOk r.fs "in/b.jpg", r.log))
      = .ok (⟨2, 2, 1, 1⟩, [true, true, true, true], false,
          [("in/b.jpg", "in/duplicates/b.jpg")]) ∧
    ((Run toyLib insertionLib id (NewDuplicateDetector defaultCfg) twins pairWalk).bind
        fun r1 => (Run toyLib insertionLib id (NewDuplicateDetector defaultCfg) r1.fs
          secondWalk).map fun r2 => (r2.stats.FilesMoved, r2.log))
      = .ok (1, [("in/duplicates/b.jpg", "in/duplicates/b_1.jpg")]) ∧
    (Run toyLib insertionLib id (NewDuplicateDetector outsideCfg) twins pairWalk).map
        (fun r1 => r1.sigs)
      = .ok [("md5-of-[1, 1, 2, 3, 4]", ["in/a.jpg", "in/b.jpg"])] ∧
    ((Run toyLib insertionLib id (NewDuplicateDetector outsideCfg) twins pairWalk).bind
        fun r1 => (Run toyLib insertionLib id { config := outsideCfg, sigs := r1.sigs } r1.fs
          keeperWalk).map fun r2 => r2.sigs)
      = .ok [("md5-of-[1, 1, 2, 3, 4]", ["in/a.jpg", "in/b.jpg", "in/a.jpg"])] ∧
    ((Run toyLib insertionLib id (NewDuplicateDetector outsideCfg) twins pairWalk).bind
        fun r1 => (Run toyLib insertionLib id { config := outsideCfg, sigs := r1.sigs } r1.fs
          keeperWalk).map fun r2 => (r2.stats.FilesMoved, r2.log, statOk r2.fs "in/a.jpg"))
      = .ok (1, [("in/a.jpg", "out/a.jpg")], false) := by
  refine ⟨by decide, by decide, by decide, by decide, by decide, by decide⟩

/-- C6, amended: let a first run of a new detector succeed on a walk that lists
each path once and in which no file is at a destination candidate of a file.
Then a run of a new detector with the same configuration on the resulting
filesystem, on a walk that reports no error, lists each path once and lists
only files that exist and that the first walk listed (as is the case when the
output directory lies outside the input directory), returns no error, moves no
file and leaves the filesystem as it is. -/
theorem Run_second_moves_nothing (lib : ImageLib) (srt : SortLib) (cfg : Config)
    (order : SigMap → List (String × List String)) (fs : FS) (walk walk2 : List WalkEntry)
    (r1 : RunResult) (hrun : Run lib srt order (NewDuplicateDetector cfg) fs walk = .ok r1)
    (horder : ∀ m, (order m).Perm m) (hnd : (walk.map fun e => e.path).Nodup)
    (hdis : ∀ e1 ∈ walk, ∀ e2 ∈ walk, e1.isDir = false → e2.isDir = false →
      e1.path ∉ destCandidates cfg e2.path)
    (herr2 : ∀ e ∈ walk2, e.err = false) (hnd2 : (walk2.map fun e => e.path).Nodup)
    (hsub : ∀ e ∈ walk2, e.isDir = false →
      statOk r1.fs e.path = true ∧ ∃ e1 ∈ walk, e1.path = e.path ∧ e1.isDir = false) :
    ∃ r2, Run lib srt order (NewDuplicateDetector cfg) r1.fs walk2 = .ok r2 ∧
      r2.stats.FilesMoved = 0 ∧ r2.fs = r1.fs ∧ r2.log = [] := by
  obtain ⟨stats, sigs, hscan, _, _, hGnd, hfsM, hframe, _⟩ :=
    Run_moves lib srt cfg order fs walk r1 hrun horder hnd hdis
  obtain ⟨⟨stats2, sigs2⟩, hscan2⟩ := scan_ok_of_no_err lib cfg r1.fs walk2 (zeroStats, []) herr2
  have hkeys := scan_keys_nodup lib cfg fs walk stats sigs hscan
  have hsigsfold := (scan_sigs lib cfg fs walk _ _ hscan).2
  simp only at hsigsfold
  obtain ⟨hmnd2, hmsub2⟩ := walk_members lib cfg r1.fs walk2 stats2 sigs2 hscan2 hnd2
  have hw2 : wellSigned lib cfg r1.fs sigs2 :=
    scan_wellSigned lib cfg r1.fs walk2 (zeroStats, []) (stats2, sigs2) hscan2
      (by intro sig files hmem; simp at hmem)
  have hQ : ∀ s files2, (s, files2) ∈ sigs2 → ∀ q ∈ ranking srt r1.fs files2,
      ∃ files1, (s, files1) ∈ sigs ∧ q ∈ files1 ∧ q ∉ toMove srt fs files1 ∧
        readable fs q = true := by
    intro s files2 hg q hq
    obtain ⟨hqF, hqR⟩ := ranking_subset srt r1.fs files2 q hq
    obtain ⟨e, he, hpe, hsome⟩ := hmsub2 q (mem_members sigs2 s files2 q hg hqF)
    obtain ⟨s', hs'⟩ := Option.isSome_iff_exists.mp hsome
    obtain ⟨hdir, himg, _⟩ := (signedAs_some lib cfg r1.fs e s').mp hs'
    have hgen2 := hw2 s files2 hg q hqF
    obtain ⟨hstat, e1, he1, hp1, hdir1⟩ := hsub e he hdir
    rw [hpe] at hstat hp1 himg
    have hsame : r1.fs q = fs q ∧ q ∉ moveSet srt fs (order sigs) := by
      by_cases hm : q ∈ members (order sigs)
      · have hq1 := hfsM q hm
        by_cases hmv : q ∈ moveSet srt fs (order sigs)
        · rw [if_pos hmv] at hq1
          simp [statOk, hq1] at hstat
        · rw [if_neg hmv] at hq1
          exact ⟨hq1, hmv⟩
      · refine ⟨?_, fun hmv => hm (moveSet_subset srt _ _ q hmv)⟩
        have hq1 := hframe e1 he1 hdir1 (by rw [hp1]; exact hm)
        rw [hp1] at hq1
        exact hq1
    have hgen1 : GenerateSignature lib fs q cfg.ThumbnailSize = .ok s := by
      rw [← GenerateSignature_congr lib r1.fs fs q _ hsame.1]
      exact hgen2
    have hs1 : signedAs lib cfg fs e1 = some s :=
      (signedAs_some lib cfg fs e1 s).mpr
        ⟨hdir1, by rw [hp1]; exact himg, by rw [hp1]; exact hgen1⟩
    obtain ⟨files1, hf1, hq1⟩ := foldl_nextSigs_complete lib cfg fs walk [] e1 s he1 hs1
    rw [← hsigsfold] at hf1
    rw [hp1] at hq1
    refine ⟨files1, hf1, hq1, ?_, ?_⟩
    · intro htm
      exact hsame.2 (moveSet_of_group srt fs _ s files1 q ((horder sigs).mem_iff.mpr hf1) htm)
    · rw [← readable_congr r1.fs fs q hsame.1]
      exact hqR
  have hnoop : ∀ g ∈ order sigs2, toMove srt r1.fs g.2 = [] := by
    intro g hg
    obtain ⟨s, files2⟩ := g
    have hg' := (horder sigs2).mem_iff.mp hg
    unfold toMove
    simp only
    split
    · rfl
    · have hRnd := ranking_nodup srt r1.fs files2 (group_nodup sigs2 s files2 hmnd2 hg')
      have hlen : (ranking srt r1.fs files2).length ≤ 1 := by
        apply length_le_one_of_all_eq _ hRnd
        intro x hx y hy
        obtain ⟨f1, a1, a2, a3, a4⟩ := hQ s files2 hg' x hx
        obtain ⟨f1', b1, b2, b3, b4⟩ := hQ s files2 hg' y hy
        have hu := group_unique sigs s f1 f1' hkeys a1 b1
        subst hu
        by_cases hshort : f1.length ≤ 1
        · exact eq_of_mem_short f1 x y hshort a2 b2
        · have htm : toMove srt fs f1 = (ranking srt fs f1).drop 1 := toMove_of_two srt fs f1 (by omega)
          rw [htm] at a3 b3
          exact eq_of_mem_not_mem_drop (ranking srt fs f1) x y
            ((ranking_perm srt fs f1).mem_iff.mpr (List.mem_filter.mpr ⟨a2, a4⟩)) a3
            ((ranking_perm srt fs f1).mem_iff.mpr (List.mem_filter.mpr ⟨b2, b4⟩)) b3
      exact List.drop_eq_nil_of_le hlen
  have hpd := processDuplicates_noop srt cfg (order sigs2) { moved := 0, fs := r1.fs, log := [] } hnoop
  refine ⟨{ stats := { stats2 with FilesMoved := 0, DuplicatesFound := countDuplicates sigs2 },
            fs := r1.fs, log := [], sigs := sigs2 }, ?_, rfl, rfl, rfl⟩
  unfold Run
  simp only [NewDuplicateDetector]
  rw [hscan2]
  simp only
  rw [hpd]

set_option maxRecDepth 100000 in
/-- C6, witness: after the run of `outsideCfg` on the two copies and the corrupt
file, which moves `in/b.jpg` to `out/b.jpg`, the run of a new detector on the
walk of what is left in `in` moves nothing. -/
theorem Run_second_moves_nothing_witness :
    ∃ r1 r2, Run toyLib insertionLib id (NewDuplicateDetector outsideCfg) twinsAndCorrupt
        twinsWalk = .ok r1 ∧
      r1.stats.FilesMoved = 1 ∧
      Run toyLib insertionLib id (NewDuplicateDetector outsideCfg) r1.fs afterWalk = .ok r2 ∧
      r2.stats.FilesMoved = 0 ∧ r2.fs = r1.fs := by
  cases h : Run toyLib insertionLib id (NewDuplicateDetector outsideCfg) twinsAndCorrupt
      twinsWalk with
  | error e =>
    have hok := twinsWalk_run_succeeds
    rw [h] at hok
    cases hok
  | ok r1 =>
    have hfacts : (Run toyLib insertionLib id (NewDuplicateDetector outsideCfg)
        twinsAndCorrupt twinsWalk).map
        (fun r => (r.stats.FilesMoved, afterWalk.map fun e => e.isDir || statOk r.fs e.path))
        = .ok (1, [true, true, true]) := by decide
    rw [h] at hfacts
    simp only [Except.map, Except.ok.injEq, Prod.mk.injEq] at hfacts
    obtain ⟨hmoved, hexist⟩ := hfacts
    have hsub : ∀ e ∈ afterWalk, e.isDir = false →
        statOk r1.fs e.path = true ∧ ∃ e1 ∈ twinsWalk, e1.path = e.path ∧ e1.isDir = false := by
      intro e he hdir
      simp only [afterWalk, List.map_cons, List.map_nil, List.cons.injEq, and_true] at hexist
      simp only [afterWalk, List.mem_cons, List.mem_singleton, List.not_mem_nil, or_false] at he
      rcases he with rfl | rfl | rfl
      · simp at hdir
      · exact ⟨by simpa using hexist.2.1, by decide⟩
      · exact ⟨by simpa using hexist.2.2, by decide⟩
    obtain ⟨r2, h2, hm2, hfs2, _⟩ := Run_second_moves_nothing toyLib insertionLib outsideCfg id
      twinsAndCorrupt twinsWalk afterWalk r1 h (fun m => List.Perm.refl m) twinsWalk_nodup
      (fun e1 he1 e2 he2 _ _ => twinsWalk_disjoint e1 he1 e2 he2) (by decide) (by decide) hsub
    exact ⟨r1, r2, rfl, hmoved, h2, hm2, hfs2⟩

end GoDuplicatePhoto
